import Mathlib

/-!
# kube-vault-client: the secret-resolution pipeline of `secrets.go`

A shallow embedding of `secrets.go` (`parsePaths`, `fetchSecret`, `fetchSecrets`,
`writeSecrets`, `secret.String`) and theorems about it.

Modelling conventions.

* A Go `string` holding valid UTF-8 text is the list of its code points
  (`GoString`).  `strings.Split` is only ever called with the one-byte
  separators `","` and `"#"`, so splitting on bytes and on code points agree.
* A Go function returning `(x, err)` returns a structure with both components;
  a nil slice, a nil pointer and a nil `error` are `none`.
* `[]*secret` holds pointers to distinct, freshly allocated records, so it is a
  list of records and the assignment `s.value = ...` replaces the record.
* A run-time panic (failed type assertion) is an explicit outcome.
* Calls to `glog` only emit diagnostics and are left out.
-/

namespace KubeVaultClient

/-! ## Strings -/

/-- Go `string` (valid UTF-8), as its sequence of code points. -/
abbrev GoString := List Char

/-- Go `error` values: those built by `fmt.Errorf` in `secrets.go`, and those
handed back by the Vault client or the operating system. -/
inductive GoError where
  | errorf (msg : GoString)
  | external (msg : GoString)
  deriving DecidableEq, Repr

/-- Go `unicode.IsSpace`: the Latin-1 cases `'\t' '\n' '\v' '\f' '\r' ' '`,
U+0085, U+00A0, and beyond Latin-1 the `White_Space` table. -/
def isSpace (c : Char) : Bool :=
  let n := c.toNat
  (9 ≤ n && n ≤ 13) || n == 0x20 || n == 0x85 || n == 0xA0 || n == 0x1680 ||
  (0x2000 ≤ n && n ≤ 0x200A) || n == 0x2028 || n == 0x2029 || n == 0x202F ||
  n == 0x205F || n == 0x3000

/-- Drop the trailing characters satisfying `p`. -/
def trimRightFunc (p : Char → Bool) : GoString → GoString
  | [] => []
  | c :: cs =>
    match trimRightFunc p cs with
    | [] => if p c then [] else [c]
    | r :: rs => c :: r :: rs

/-- Go `strings.TrimSpace`: the string without its leading and trailing white
space. -/
def TrimSpace (s : GoString) : GoString :=
  trimRightFunc isSpace (s.dropWhile isSpace)

/-- Go `strings.Split(s, sep)` for a one-character separator: the substrings
between the separators, `Count(s, sep) + 1` of them. -/
def Split (s : GoString) (sep : Char) : List GoString :=
  match s with
  | [] => [[]]
  | c :: cs =>
    if c = sep then [] :: Split cs sep
    else
      match Split cs sep with
      | [] => [[c]]
      | t :: ts => (c :: t) :: ts

/-- The entries of a list joined by a one-character separator (`strings.Join`). -/
def Join (sep : Char) : List GoString → GoString
  | [] => []
  | [a] => a
  | a :: b :: rest => a ++ sep :: Join sep (b :: rest)

/-! ## Data model -/

/-- The record `secret` of `secrets.go`. -/
structure secret where
  name : GoString
  path : GoString
  key : GoString
  value : GoString
  deriving DecidableEq, Repr

/-- `secret.String`: `fmt.Sprintf("(%s): %s %s=%s", name, path, key, displayVal)`
where `displayVal` is `"[...]"` for a non-empty value and `""` otherwise. -/
def secret.String (s : secret) : GoString :=
  let displayVal : GoString := if s.value ≠ [] then "[...]".toList else []
  "(".toList ++ s.name ++ "): ".toList ++ s.path ++ " ".toList ++ s.key ++ "=".toList ++ displayVal

/-! ## parsePaths -/

/-- The pair `([]*secret, error)` returned by `parsePaths`. -/
structure ParseResult where
  secrets : Option (List secret)
  err : Option GoError
  deriving DecidableEq, Repr

/-- The loop `for _, e := range p` of `parsePaths`, with `results` the slice
built so far. -/
def parseLoop : List GoString → List secret → ParseResult
  | [], results => ⟨some results, none⟩
  | e :: rest, results =>
    let e := TrimSpace e
    let toks := Split e '#'
    match toks with
    | [t0, t1, t2] =>
      parseLoop rest (results ++ [{ path := t0, key := t1, name := t2, value := [] }])
    | _ => ⟨none, some (.errorf ("Invalid entry ".toList ++ e))⟩

/-- `parsePaths(paths)`. -/
def parsePaths (paths : GoString) : ParseResult :=
  parseLoop (Split paths ',') []

/-! ## The Vault client -/

/-- A Go `interface{}` value as decoded from a Vault response: the nil
interface, a `string`, a `map[string]interface{}`, or a value of any other
dynamic type (`json.Number`, `bool`, `[]interface{}`), kept by its rendering. -/
inductive Value where
  | null
  | str (s : GoString)
  | map (m : List (GoString × Value))
  | other (repr : GoString)

/-- Go `map[string]interface{}`, as an association list read left to right;
the nil map is the empty one. -/
abbrev GoMap := List (GoString × Value)

/-- The two-valued map read `v, ok := m[k]`; `none` when `ok` is false. -/
def GoMap.lookup (m : GoMap) (k : GoString) : Option Value :=
  match m with
  | [] => none
  | (k', v) :: rest => if k' = k then some v else GoMap.lookup rest k

/-- The one-valued map read `m[k]`: the zero value (nil interface) when the
key is absent. -/
def GoMap.index (m : GoMap) (k : GoString) : Value :=
  match m.lookup k with
  | some v => v
  | none => .null

/-- Whether an interface value is the nil interface (`v == nil`). -/
def Value.isNil : Value → Bool
  | .null => true
  | _ => false

/-- The type assertion `v.(map[string]interface{})`; `none` is the panic. -/
def Value.assertMap : Value → Option GoMap
  | .map m => some m
  | _ => none

/-- The type assertion `v.(string)`; `none` is the panic. -/
def Value.assertString : Value → Option GoString
  | .str s => some s
  | _ => none

/-- The Vault `api.Secret`, of which `secrets.go` reads the field `Data`. -/
structure ApiSecret where
  Data : GoMap

/-- The pair `(*api.Secret, error)` returned by `client.Logical().Read`. -/
structure ReadReply where
  resp : Option ApiSecret
  err : Option GoError

/-- A store client: the reply of `Logical().Read(path)`, which may depend on
the paths read earlier through the same client. -/
structure Client where
  read : List GoString → GoString → ReadReply

/-- How a call ended: it returned its `error` result, or it panicked. -/
inductive Completion where
  | returned (err : Option GoError)
  | panicked
  deriving DecidableEq, Repr

/-- The state after a call of `fetchSecret`: the record behind the pointer `s`,
the paths read from the store so far, and how the call ended. -/
structure FetchOutcome where
  s : secret
  reads : List GoString
  status : Completion
  deriving DecidableEq, Repr

/-! ## fetchSecret and fetchSecrets -/

/-- `fetchSecret(s, client)`, started when the paths `reads` have been read. -/
def fetchSecret (s : secret) (client : Client) (reads : List GoString) : FetchOutcome :=
  let reply := client.read reads s.path
  let reads := reads ++ [s.path]
  match reply.err with
  | some err => ⟨s, reads, .returned (some err)⟩
  | none =>
    match reply.resp with
    | none =>
      ⟨s, reads, .returned (some (.errorf ("Secret (".toList ++ s.path ++ ") not found".toList)))⟩
    | some resp =>
      let data : Option GoMap :=
        if (resp.Data.index "data".toList).isNil then some resp.Data
        else (resp.Data.index "data".toList).assertMap
      match data with
      | none => ⟨s, reads, .panicked⟩
      | some data =>
        match data.lookup s.key with
        | none =>
          ⟨s, reads, .returned (some (.errorf
            ("Secret (".toList ++ s.path ++ "#".toList ++ s.key ++ ") not found".toList)))⟩
        | some val =>
          match val.assertString with
          | none => ⟨s, reads, .panicked⟩
          | some v => ⟨{ s with value := v }, reads, .returned none⟩

/-- How `fetchSecrets` ended: it returned the pair `([]*secret, error)`, or it
panicked. -/
inductive BatchCompletion where
  | returned (secrets : Option (List secret)) (err : Option GoError)
  | panicked
  deriving DecidableEq, Repr

/-- The state after a call of `fetchSecrets`: the records created by
`parsePaths` as they are at the end (in spec order), the paths read from the
store so far, and how the call ended. -/
structure BatchOutcome where
  objs : List secret
  reads : List GoString
  status : BatchCompletion
  deriving DecidableEq, Repr

/-- The loop `for _, s := range secrets` of `fetchSecrets`: `done` are the
records already visited, `todo` those still to visit. -/
def fetchLoop (client : Client) : List secret → List secret → List GoString → BatchOutcome
  | done, [], reads => ⟨done, reads, .returned (some done) none⟩
  | done, s :: rest, reads =>
    let o := fetchSecret s client reads
    match o.status with
    | .returned none => fetchLoop client (done ++ [o.s]) rest o.reads
    | .returned (some err) => ⟨done ++ o.s :: rest, o.reads, .returned none (some err)⟩
    | .panicked => ⟨done ++ o.s :: rest, o.reads, .panicked⟩

/-- `fetchSecrets(paths, client)`, started when the paths `reads` have been
read. -/
def fetchSecrets (paths : GoString) (client : Client) (reads : List GoString) : BatchOutcome :=
  let r := parsePaths paths
  match r.err with
  | some err => ⟨[], reads, .returned none (some err)⟩
  | none =>
    match r.secrets with
    | none => ⟨[], reads, .returned none none⟩
    | some secrets => fetchLoop client [] secrets reads

/-! ## The file system and the buffered writer -/

/-- The part of the operating system `writeSecrets` acts on: the directories
and regular files that exist, what `filepath.Dir` computes on this platform,
and when the system calls fail. -/
structure FileSystem where
  /-- Directories that exist. -/
  dirs : List GoString
  /-- Contents of the regular files that exist, by path. -/
  files : GoString → Option GoString
  /-- Library function `filepath.Dir`. -/
  Dir : GoString → GoString
  /-- The error of `os.MkdirAll` on a directory, if it fails. -/
  mkdirErr : GoString → Option GoError
  /-- The error of `os.Create` on a path, if it fails, given the directories
  that exist. -/
  createErr : List GoString → GoString → Option GoError
  /-- Number of characters the device still accepts; `none` is no limit. -/
  room : Option Nat

/-- An open `*os.File`, known by its path. -/
structure File where
  name : GoString
  deriving DecidableEq, Repr

/-- `os.MkdirAll(dir, 0755)`: the directory exists afterwards unless the call
fails. -/
def MkdirAll (fs : FileSystem) (dir : GoString) : FileSystem × Option GoError :=
  match fs.mkdirErr dir with
  | some err => (fs, some err)
  | none => ({ fs with dirs := dir :: fs.dirs }, none)

/-- `os.Create(name)`: creates the file or truncates it to length zero. -/
def Create (fs : FileSystem) (name : GoString) : FileSystem × Except GoError File :=
  match fs.createErr fs.dirs name with
  | some err => (fs, .error err)
  | none => ({ fs with files := fun p => if p = name then some [] else fs.files p }, .ok ⟨name⟩)

/-- `(*os.File).Write(p)`: appends as much of `p` as the device accepts and
returns the number of characters written, with an error when that is not all
of `p`. -/
def File.Write (fs : FileSystem) (f : File) (p : GoString) : FileSystem × Nat × Option GoError :=
  let n := match fs.room with
    | none => p.length
    | some r => min r p.length
  let old := (fs.files f.name).getD []
  let fs' : FileSystem :=
    { fs with
      files := fun q => if q = f.name then some (old ++ p.take n) else fs.files q
      room := fs.room.map (fun r => r - n) }
  (fs', n, if n < p.length then some (.external "no space left on device".toList) else none)

/-- The size of the buffer of `bufio.NewWriter` (`defaultBufSize`). -/
def defaultBufSize : Nat := 4096

/-- A `bufio.Writer`: the file underneath, the characters buffered and the
sticky error. -/
structure Writer where
  wr : File
  buf : GoString
  err : Option GoError
  deriving DecidableEq, Repr

/-- `bufio.NewWriter(f)`. -/
def NewWriter (f : File) : Writer := ⟨f, [], none⟩

/-- `(*bufio.Writer).Flush`: after an error nothing is written any more;
otherwise the buffer is written to the file, and what the file did not accept
stays buffered with the error recorded. -/
def Writer.Flush (fs : FileSystem) (b : Writer) : FileSystem × Writer × Option GoError :=
  match b.err with
  | some err => (fs, b, some err)
  | none =>
    if b.buf = [] then (fs, b, none)
    else
      match b.wr.Write fs b.buf with
      | (fs', n, some err) => (fs', { b with buf := b.buf.drop n, err := some err }, some err)
      | (fs', n, none) =>
        if n < b.buf.length then
          (fs', { b with buf := b.buf.drop n, err := some (.external "short write".toList) },
            some (.external "short write".toList))
        else (fs', { b with buf := [] }, none)

/-- One character of `(*bufio.Writer).WriteString`: a full buffer is flushed
before the character is copied into it; after an error nothing is accepted. -/
def Writer.writeChar (st : FileSystem × Writer) (c : Char) : FileSystem × Writer :=
  match st.2.err with
  | some _ => st
  | none =>
    if st.2.buf.length < defaultBufSize then (st.1, { st.2 with buf := st.2.buf ++ [c] })
    else
      match st.2.Flush st.1 with
      | (fs', b', some _) => (fs', b')
      | (fs', b', none) => (fs', { b' with buf := b'.buf ++ [c] })

/-- `(*bufio.Writer).WriteString(s)`: the characters of `s` go into the buffer,
which is flushed whenever it is full and more of `s` is left; the result is the
sticky error. -/
def Writer.WriteString (fs : FileSystem) (b : Writer) (s : GoString) :
    FileSystem × Writer × Option GoError :=
  let st := s.foldl Writer.writeChar (fs, b)
  (st.1, st.2, st.2.err)

/-! ## writeSecrets -/

/-- The line `fmt.Sprintf("%s=%s\n", s.name, s.value)`. -/
def secretLine (s : secret) : GoString :=
  s.name ++ "=".toList ++ s.value ++ "\n".toList

/-- The loop `for _, s := range secrets` of `writeSecrets`; the results of
`WriteString` are dropped. -/
def writeLoop : List secret → FileSystem → Writer → FileSystem × Writer
  | [], fs, w => (fs, w)
  | s :: rest, fs, w =>
    match w.WriteString fs (secretLine s) with
    | (fs', w', _) => writeLoop rest fs' w'

/-- `writeSecrets(secrets, location)`: the file system afterwards and the
returned `error`.  The results of `os.MkdirAll`, of every `WriteString` and of
`Flush` are dropped, as in the source. -/
def writeSecrets (fs : FileSystem) (secrets : List secret) (location : GoString) :
    FileSystem × Option GoError :=
  let dir := fs.Dir location
  match MkdirAll fs dir with
  | (fs, _) =>
    match Create fs location with
    | (fs, .error err) => (fs, some err)
    | (fs, .ok f) =>
      let w := NewWriter f
      match writeLoop secrets fs w with
      | (fs, w) =>
        match w.Flush fs with
        | (fs, _, _) => (fs, none)

/-- A file system with nothing in it on which every call succeeds, with the
given free space; `Dir` cuts the path after its last `/`. -/
def emptyFS (room : Option Nat) : FileSystem where
  dirs := []
  files := fun _ => none
  Dir := fun p => (p.reverse.dropWhile (fun c => c != '/')).reverse
  mkdirErr := fun _ => none
  createErr := fun _ _ => none
  room := room

/-! ## Vocabulary of the statements -/

/-- Whether the first character of a string is white space. -/
def startsWithSpace : GoString → Bool
  | [] => false
  | c :: _ => isSpace c

/-- Whether the last character of a string is white space. -/
def endsWithSpace : GoString → Bool
  | [] => false
  | [c] => isSpace c
  | _ :: c :: cs => endsWithSpace (c :: cs)

/-- One entry of a spec string as it is written: a triple `path#key#name` with
white space `lead` before it and `trail` after it. -/
structure SpecEntry where
  lead : GoString
  path : GoString
  key : GoString
  name : GoString
  trail : GoString

/-- The text of an entry: `lead ++ path ++ "#" ++ key ++ "#" ++ name ++ trail`. -/
def SpecEntry.text (e : SpecEntry) : GoString :=
  e.lead ++ (e.path ++ '#' :: (e.key ++ '#' :: e.name)) ++ e.trail

/-- The descriptor an entry stands for: its triple, with an empty value. -/
def SpecEntry.toSecret (e : SpecEntry) : secret :=
  { path := e.path, key := e.key, name := e.name, value := [] }

/-- A well-formed entry: `lead` and `trail` are white space, no component
holds `,` or `#`, the path does not start and the name does not end with white
space. -/
def SpecEntry.WellFormed (e : SpecEntry) : Prop :=
  (∀ c ∈ e.lead, isSpace c = true) ∧ (∀ c ∈ e.trail, isSpace c = true) ∧
  (',' ∉ e.path ∧ '#' ∉ e.path) ∧ (',' ∉ e.key ∧ '#' ∉ e.key) ∧
  (',' ∉ e.name ∧ '#' ∉ e.name) ∧
  startsWithSpace e.path = false ∧ endsWithSpace e.name = false

instance (e : SpecEntry) : Decidable e.WellFormed := by
  unfold SpecEntry.WellFormed
  infer_instance

/-- The effective data of a response, in the words of the specification: the
mapping nested under a non-null `"data"` entry of the top-level mapping when
there is such an entry, the top-level mapping otherwise; `none` when the
non-null `"data"` entry is not a mapping. -/
def effectiveData (top : GoMap) : Option GoMap :=
  match top.lookup "data".toList with
  | none => some top
  | some .null => some top
  | some (.map nested) => some nested
  | some _ => none

/-- The error `fmt.Errorf("Secret (%s) not found", path)`. -/
def pathNotFound (path : GoString) : GoError :=
  .errorf ("Secret (".toList ++ path ++ ") not found".toList)

/-- The error `fmt.Errorf("Secret (%s#%s) not found", path, key)`. -/
def keyNotFound (path key : GoString) : GoError :=
  .errorf ("Secret (".toList ++ path ++ "#".toList ++ key ++ ") not found".toList)

/-- The client whose every read gives the same reply. -/
def constClient (reply : ReadReply) : Client := ⟨fun _ _ => reply⟩

/-- A store with no entry at the path `b` and the data `{"k": "v"}` at every
other path. -/
def storeWithoutB : Client :=
  ⟨fun _ p =>
    if p = "b".toList then ⟨none, none⟩
    else ⟨some ⟨[("k".toList, .str "v".toList)]⟩, none⟩⟩

/-- The concatenation, in sequence order, of the lines `name=value\n` of a
sequence of secrets. -/
def render : List secret → GoString
  | [] => []
  | s :: rest => s.name ++ "=".toList ++ s.value ++ "\n".toList ++ render rest

/-- Whether the string `s` starts with the string `p`. -/
def beginsWith : GoString → GoString → Bool
  | [], _ => true
  | _ :: _, [] => false
  | p :: ps, c :: cs => p == c && beginsWith ps cs

/-- The lines of a text file: the pieces ended by a newline. -/
def fileLines (contents : GoString) : List GoString :=
  (Split contents '\n').dropLast

/-- The lines of a text file that assign the variable `name`: those starting
with `name=`. -/
def linesFor (name contents : GoString) : List GoString :=
  (fileLines contents).filter (beginsWith (name ++ "=".toList))

/-- The file system `emptyFS room` in which the file `path` exists with the
contents `old`. -/
def fsWithFile (room : Option Nat) (path old : GoString) : FileSystem :=
  { emptyFS room with files := fun p => if p = path then some old else none }

/-- The state of a buffered writer on the file `loc` while `out` has been
handed to it and `pending` more characters are to come: no error so far, the
file followed by the buffer holds `out`, and the device has room for the buffer
and for what is to come. -/
def WriterInv (loc out : GoString) (pending : Nat) (st : FileSystem × Writer) : Prop :=
  st.2.wr.name = loc ∧ st.2.err = none ∧
  (∃ old, st.1.files loc = some old ∧ old ++ st.2.buf = out) ∧
  ∀ r, st.1.room = some r → st.2.buf.length + pending ≤ r

instance : Inhabited Value := ⟨Value.null⟩

instance : Nonempty GoMap := ⟨[]⟩

/-- The descriptor made of the segments of an entry: the first three
`#`-separated segments of the trimmed entry as path, key and name, with an
empty value. -/
def segmentSecret (e : GoString) : secret :=
  let toks := Split (TrimSpace e) '#'
  { path := toks.getD 0 [], key := toks.getD 1 [], name := toks.getD 2 [], value := [] }

/-- The first entry of a list that, once trimmed, does not split into exactly
three `#`-separated segments. -/
def firstBad (es : List GoString) : Option GoString :=
  es.find? (fun e => (Split (TrimSpace e) '#').length != 3)

/-- The string found under the key of `s` in the effective data at the path of
`s`, for a read that succeeds with a response; `none` when there is no such
string. -/
def fetchedValue (client : Client) (reads : List GoString) (s : secret) : Option GoString :=
  match client.read reads s.path with
  | ⟨some resp, none⟩ =>
    match effectiveData resp.Data with
    | some data =>
      match data.lookup s.key with
      | some (.str v) => some v
      | _ => none
    | none => none
  | _ => none

/-- The descriptors with their values fetched one after the other, in order,
each read coming after the reads of the descriptors before it; `none` as soon
as one descriptor has no string to fetch. -/
def fetchAll (client : Client) : List secret → List GoString → Option (List secret)
  | [], _ => some []
  | x :: rest, reads =>
    match fetchedValue client reads x with
    | none => none
    | some v =>
      match fetchAll client rest (reads ++ [x.path]) with
      | none => none
      | some res => some ({ x with value := v } :: res)

/-! ## Split, Join and TrimSpace -/

theorem Split_ne_nil (s : GoString) (sep : Char) : Split s sep ≠ [] := by
  cases s with
  | nil => simp [Split]
  | cons c cs =>
    unfold Split
    split
    · simp
    · split <;> simp

theorem Split_of_not_mem (sep : Char) (s : GoString) (h : sep ∉ s) : Split s sep = [s] := by
  induction s with
  | nil => rfl
  | cons c cs ih =>
    have hc : c ≠ sep := fun e => h (by simp [e])
    have hcs : sep ∉ cs := fun e => h (by simp [e])
    simp [Split, hc, ih hcs]

theorem Split_append (sep : Char) (a b : GoString) (h : sep ∉ a) :
    Split (a ++ sep :: b) sep = a :: Split b sep := by
  induction a with
  | nil => simp [Split]
  | cons c cs ih =>
    have hc : c ≠ sep := fun e => h (by simp [e])
    have hcs : sep ∉ cs := fun e => h (by simp [e])
    simp [Split, hc, ih hcs]

theorem length_Split (sep : Char) (s : GoString) :
    (Split s sep).length = s.count sep + 1 := by
  induction s with
  | nil => rfl
  | cons c cs ih =>
    unfold Split
    by_cases hc : c = sep
    · subst hc
      simp [ih]
    · have hne : (c == sep) = false := by simpa using hc
      rw [if_neg hc, List.count_cons, hne]
      cases hs : Split cs sep with
      | nil => exact absurd hs (Split_ne_nil cs sep)
      | cons t ts =>
        rw [hs] at ih
        simpa using ih

theorem Split_Join (sep : Char) (es : List GoString) (hne : es ≠ [])
    (h : ∀ e ∈ es, sep ∉ e) : Split (Join sep es) sep = es := by
  induction es with
  | nil => exact absurd rfl hne
  | cons a rest ih =>
    cases rest with
    | nil => simpa [Join] using Split_of_not_mem sep a (h a (by simp))
    | cons b rest =>
      have ha : sep ∉ a := h a (by simp)
      have hrest : ∀ e ∈ b :: rest, sep ∉ e := fun e he => h e (List.mem_cons_of_mem _ he)
      simp only [Join]
      rw [Split_append sep a _ ha, ih (by simp) hrest]

theorem dropWhile_space_append (l s : GoString) (hl : ∀ c ∈ l, isSpace c = true)
    (hs : startsWithSpace s = false) : (l ++ s).dropWhile isSpace = s := by
  induction l with
  | nil =>
    cases s with
    | nil => rfl
    | cons c cs =>
      have : isSpace c = false := by simpa [startsWithSpace] using hs
      simp [List.dropWhile, this]
  | cons c cs ih =>
    have hc : isSpace c = true := hl c (by simp)
    simp [List.dropWhile, hc, ih (fun d hd => hl d (List.mem_cons_of_mem _ hd))]

theorem trimRightFunc_all (p : Char → Bool) (t : GoString) (ht : ∀ c ∈ t, p c = true) :
    trimRightFunc p t = [] := by
  induction t with
  | nil => rfl
  | cons c cs ih =>
    simp [trimRightFunc, ih (fun d hd => ht d (List.mem_cons_of_mem _ hd)), ht c (by simp)]

theorem trimRightFunc_self (s : GoString) (hs : endsWithSpace s = false) :
    trimRightFunc isSpace s = s := by
  induction s with
  | nil => rfl
  | cons c cs ih =>
    cases cs with
    | nil =>
      have : isSpace c = false := by simpa [endsWithSpace] using hs
      simp [trimRightFunc, this]
    | cons d ds =>
      have h2 : endsWithSpace (d :: ds) = false := by simpa [endsWithSpace] using hs
      rw [trimRightFunc, ih h2]

theorem trimRightFunc_append (s t : GoString) (hs : endsWithSpace s = false)
    (ht : ∀ c ∈ t, isSpace c = true) : trimRightFunc isSpace (s ++ t) = s := by
  induction s with
  | nil => simpa using trimRightFunc_all isSpace t ht
  | cons c cs ih =>
    cases cs with
    | nil =>
      have : isSpace c = false := by simpa [endsWithSpace] using hs
      simp [trimRightFunc, trimRightFunc_all isSpace t ht, this]
    | cons d ds =>
      have h2 : endsWithSpace (d :: ds) = false := by simpa [endsWithSpace] using hs
      have := ih h2
      simp only [List.cons_append] at this ⊢
      rw [trimRightFunc, this]

theorem TrimSpace_pad (l s t : GoString) (hl : ∀ c ∈ l, isSpace c = true)
    (ht : ∀ c ∈ t, isSpace c = true) (h1 : startsWithSpace s = false)
    (h2 : endsWithSpace s = false) : TrimSpace (l ++ s ++ t) = s := by
  unfold TrimSpace
  cases s with
  | nil =>
    have hall : ∀ c ∈ l ++ [] ++ t, isSpace c = true := by
      intro c hc
      simp only [List.append_nil, List.mem_append] at hc
      exact hc.elim (hl c) (ht c)
    have : (l ++ [] ++ t).dropWhile isSpace = [] := by
      rw [List.dropWhile_eq_nil_iff]
      exact hall
    rw [this]
    rfl
  | cons c cs =>
    have hst : startsWithSpace (c :: cs ++ t) = false := by simpa [startsWithSpace] using h1
    rw [List.append_assoc, dropWhile_space_append l _ hl hst]
    exact trimRightFunc_append _ t h2 ht

/-! ## parsePaths: the round trip -/

theorem startsWithSpace_core (p rest : GoString) (hp : startsWithSpace p = false) :
    startsWithSpace (p ++ '#' :: rest) = false := by
  cases p with
  | nil => exact (by decide : isSpace '#' = false)
  | cons c cs => simpa [startsWithSpace] using hp

theorem endsWithSpace_append (a n : GoString) (hn : endsWithSpace n = false) :
    endsWithSpace (a ++ '#' :: n) = false := by
  induction a with
  | nil =>
    induction n with
    | nil => decide
    | cons c cs ih =>
      cases cs with
      | nil =>
        have : isSpace c = false := by simpa [endsWithSpace] using hn
        simp [endsWithSpace, this]
      | cons d ds =>
        have h2 : endsWithSpace (d :: ds) = false := by simpa [endsWithSpace] using hn
        have := ih h2
        simp only [List.nil_append] at this ⊢
        rw [endsWithSpace]
        cases ds with
        | nil =>
          have hd : isSpace d = false := by simpa [endsWithSpace] using h2
          simp [endsWithSpace, hd]
        | cons x xs =>
          rw [endsWithSpace] at this
          rw [endsWithSpace]
          exact this
  | cons c cs ih =>
    cases hcs : cs ++ '#' :: n with
    | nil => simp at hcs
    | cons d ds =>
      rw [List.cons_append, hcs, endsWithSpace, ← hcs]
      exact ih

theorem isSpace_of_mem_ne (l : GoString) (hl : ∀ c ∈ l, isSpace c = true) (x : Char)
    (hx : isSpace x = false) : x ∉ l := by
  intro h
  rw [hl x h] at hx
  exact Bool.noConfusion hx

theorem SpecEntry.comma_not_mem_text (e : SpecEntry) (h : e.WellFormed) : ',' ∉ e.text := by
  obtain ⟨hl, ht, ⟨hp, -⟩, ⟨hk, -⟩, ⟨hn, -⟩, -, -⟩ := h
  have h1 := isSpace_of_mem_ne e.lead hl ',' (by decide)
  have h2 := isSpace_of_mem_ne e.trail ht ',' (by decide)
  simp only [SpecEntry.text, List.mem_append, List.mem_cons]
  have h3 : ¬ (',' = '#') := by decide
  tauto

theorem SpecEntry.TrimSpace_text (e : SpecEntry) (h : e.WellFormed) :
    TrimSpace e.text = e.path ++ '#' :: (e.key ++ '#' :: e.name) := by
  obtain ⟨hl, ht, -, -, -, hps, hns⟩ := h
  unfold SpecEntry.text
  apply TrimSpace_pad _ _ _ hl ht
  · exact startsWithSpace_core _ _ hps
  · exact endsWithSpace_append _ _ (endsWithSpace_append _ _ hns)

theorem SpecEntry.Split_core (e : SpecEntry) (h : e.WellFormed) :
    Split (e.path ++ '#' :: (e.key ++ '#' :: e.name)) '#' = [e.path, e.key, e.name] := by
  obtain ⟨-, -, ⟨-, hp⟩, ⟨-, hk⟩, ⟨-, hn⟩, -, -⟩ := h
  rw [Split_append '#' _ _ hp, Split_append '#' _ _ hk, Split_of_not_mem '#' _ hn]

theorem parseLoop_wellFormed (es : List SpecEntry) (h : ∀ e ∈ es, e.WellFormed)
    (results : List secret) :
    parseLoop (es.map SpecEntry.text) results
      = ⟨some (results ++ es.map SpecEntry.toSecret), none⟩ := by
  induction es generalizing results with
  | nil => simp [parseLoop]
  | cons e rest ih =>
    have he := h e (by simp)
    simp only [List.map_cons, parseLoop, SpecEntry.TrimSpace_text e he,
      SpecEntry.Split_core e he]
    rw [ih (fun x hx => h x (List.mem_cons_of_mem _ hx))]
    simp [SpecEntry.toSecret]

/-- C1: for every non-empty list of well-formed entries `path#key#name` (no
`,` or `#` in a component, no path starting and no name ending with white
space, each entry optionally surrounded by white space), `parsePaths` of the
entries joined by `,` returns no error and exactly the descriptors of the
entries, in order, each with its path, key and name verbatim and an empty
value. -/
theorem parsePaths_roundtrip (es : List SpecEntry) (hne : es ≠ [])
    (h : ∀ e ∈ es, e.WellFormed) :
    parsePaths (Join ',' (es.map SpecEntry.text))
      = ⟨some (es.map SpecEntry.toSecret), none⟩ := by
  unfold parsePaths
  rw [Split_Join ',' _ (by simpa using hne)]
  · simpa using parseLoop_wellFormed es h []
  · intro t ht
    obtain ⟨e, he, rfl⟩ := List.mem_map.mp ht
    exact SpecEntry.comma_not_mem_text e (h e he)

/-- Witness of C1 on `" secret/db# user#DB_USER ,kv/app#token #API TOKEN\t"`:
white space next to a `#` stays in the field. -/
theorem parsePaths_roundtrip_witness :
    parsePaths " secret/db# user#DB_USER ,kv/app#token #API TOKEN\t".toList
      = ⟨some [⟨"DB_USER".toList, "secret/db".toList, " user".toList, []⟩,
          ⟨"API TOKEN".toList, "kv/app".toList, "token ".toList, []⟩], none⟩ :=
  parsePaths_roundtrip
    [⟨" ".toList, "secret/db".toList, " user".toList, "DB_USER".toList, " ".toList⟩,
     ⟨[], "kv/app".toList, "token ".toList, "API TOKEN".toList, "\t".toList⟩]
    (List.cons_ne_nil _ _) (by decide)

/-! ## parsePaths: rejection -/

theorem parseLoop_bad_entry (es : List GoString) (results : List secret)
    (h : ∃ e ∈ es, (Split (TrimSpace e) '#').length ≠ 3) :
    (parseLoop es results).secrets = none ∧ (parseLoop es results).err ≠ none := by
  induction es generalizing results with
  | nil => simp at h
  | cons e rest ih =>
    unfold parseLoop
    simp only
    split
    · rename_i t0 t1 t2 heq
      obtain ⟨x, hx, hbad⟩ := h
      rcases List.mem_cons.mp hx with rfl | hx
      · rw [heq] at hbad
        exact absurd rfl hbad
      · exact ih _ ⟨x, hx, hbad⟩
    · simp

/-- C2: if some comma-separated entry of the spec string, once trimmed, holds a
number of `#` other than two, `parsePaths` returns an error and a nil result,
whatever the other entries are. -/
theorem parsePaths_rejects (paths e : GoString) (he : e ∈ Split paths ',')
    (hcount : (TrimSpace e).count '#' ≠ 2) :
    (parsePaths paths).secrets = none ∧ (parsePaths paths).err ≠ none := by
  apply parseLoop_bad_entry
  refine ⟨e, he, ?_⟩
  rw [length_Split]
  omega

/-- Witness of C2: the valid entries around `b#c` do not save the spec. -/
theorem parsePaths_rejects_witness :
    (parsePaths "p#k#n, b#c ,q#l#m".toList).secrets = none ∧
    (parsePaths "p#k#n, b#c ,q#l#m".toList).err ≠ none :=
  parsePaths_rejects "p#k#n, b#c ,q#l#m".toList " b#c ".toList (by decide) (by decide)

/-! ## parsePaths: the empty spec string -/

/-- C10, as stated, fails: `parsePaths` of the empty string does not return an
empty sequence without error. -/
theorem parsePaths_empty_not_ok : parsePaths [] ≠ ⟨some [], none⟩ := by
  decide

/-- C10, amended: `parsePaths` of the empty string returns a nil result and the
error `Invalid entry ` (the empty string splits into one empty entry, which
does not split into three segments). -/
theorem parsePaths_empty : parsePaths [] = ⟨none, some (.errorf "Invalid entry ".toList)⟩ := by
  decide

/-! ## fetchSecret -/

theorem fetchSecret_of_resp (s : secret) (client : Client) (reads : List GoString)
    (top : GoMap) (h : client.read reads s.path = ⟨some ⟨top⟩, none⟩) :
    fetchSecret s client reads =
      match effectiveData top with
      | none => ⟨s, reads ++ [s.path], .panicked⟩
      | some data =>
        match data.lookup s.key with
        | none => ⟨s, reads ++ [s.path], .returned (some (keyNotFound s.path s.key))⟩
        | some (.str v) => ⟨{ s with value := v }, reads ++ [s.path], .returned none⟩
        | some _ => ⟨s, reads ++ [s.path], .panicked⟩ := by
  unfold fetchSecret
  simp only [h]
  unfold effectiveData GoMap.index
  cases hd : GoMap.lookup top "data".toList with
  | none =>
    simp only [Value.isNil, if_true]
    cases hk : GoMap.lookup top s.key with
    | none => rfl
    | some val => cases val <;> rfl
  | some d =>
    cases d with
    | null =>
      simp only [Value.isNil, if_true]
      cases hk : GoMap.lookup top s.key with
      | none => rfl
      | some val => cases val <;> rfl
    | str x => simp [Value.isNil, Value.assertMap]
    | other x => simp [Value.isNil, Value.assertMap]
    | map m =>
      simp only [Value.isNil, Value.assertMap, Bool.false_eq_true, if_false]
      cases hk : GoMap.lookup m s.key with
      | none => rfl
      | some val => cases val <;> rfl

theorem effectiveData_flat (m : GoMap) (h : (m.index "data".toList).isNil = true) :
    effectiveData m = some m := by
  unfold effectiveData
  unfold GoMap.index at h
  cases hd : GoMap.lookup m "data".toList with
  | none => rfl
  | some d =>
    rw [hd] at h
    cases d <;> first | rfl | exact absurd h (by simp [Value.isNil])

theorem effectiveData_nested (m : GoMap) :
    effectiveData [("data".toList, .map m)] = some m := by
  simp [effectiveData, GoMap.lookup]

/-- C3: when the mapping `m` has no non-null entry under `"data"`, a store that
returns `m` itself (flat) and a store that returns `{"data": m}` (nested) make
`fetchSecret` end in the same outcome: same record, same reads, same returned
error or panic; and when `m` maps the key to a string `v`, that outcome is a
nil error with `s.value = v`. -/
theorem fetchSecret_flat_nested (s : secret) (flat nested : Client) (reads : List GoString)
    (m : GoMap) (hm : (m.index "data".toList).isNil = true)
    (hflat : flat.read reads s.path = ⟨some ⟨m⟩, none⟩)
    (hnested : nested.read reads s.path = ⟨some ⟨[("data".toList, .map m)]⟩, none⟩) :
    fetchSecret s flat reads = fetchSecret s nested reads ∧
    ∀ v, m.lookup s.key = some (.str v) →
      (fetchSecret s flat reads).s.value = v ∧
      (fetchSecret s flat reads).status = .returned none := by
  rw [fetchSecret_of_resp s flat reads m hflat, fetchSecret_of_resp s nested reads _ hnested,
    effectiveData_flat m hm, effectiveData_nested m]
  refine ⟨rfl, ?_⟩
  intro v hv
  simp [hv]

/-- Witness of C3: with `m = {"k": "v"}` and key `"k"`, the flat and the nested
response both set the value to `"v"`. -/
theorem fetchSecret_flat_nested_witness :
    fetchSecret ⟨"N".toList, "p".toList, "k".toList, []⟩
        (constClient ⟨some ⟨[("k".toList, .str "v".toList)]⟩, none⟩) []
      = fetchSecret ⟨"N".toList, "p".toList, "k".toList, []⟩
        (constClient ⟨some ⟨[("data".toList, .map [("k".toList, .str "v".toList)])]⟩, none⟩) [] ∧
    (fetchSecret ⟨"N".toList, "p".toList, "k".toList, []⟩
        (constClient ⟨some ⟨[("data".toList, .map [("k".toList, .str "v".toList)])]⟩, none⟩) []).s.value
      = "v".toList :=
  have h := fetchSecret_flat_nested ⟨"N".toList, "p".toList, "k".toList, []⟩
    (constClient ⟨some ⟨[("k".toList, .str "v".toList)]⟩, none⟩)
    (constClient ⟨some ⟨[("data".toList, .map [("k".toList, .str "v".toList)])]⟩, none⟩) []
    [("k".toList, .str "v".toList)] rfl rfl rfl
  ⟨h.1, h.1 ▸ (h.2 "v".toList rfl).1⟩

/-- C4: when the read succeeds with no entry, `fetchSecret` returns the error
`Secret (<path>) not found`; when it succeeds with a response whose effective
data has no entry for `s.key`, `fetchSecret` returns the error
`Secret (<path>#<key>) not found`, whatever the top level of a nested response
holds.  In both cases the record is left as it was. -/
theorem fetchSecret_not_found (s : secret) (client : Client) (reads : List GoString) :
    (client.read reads s.path = ⟨none, none⟩ →
      fetchSecret s client reads
        = ⟨s, reads ++ [s.path], .returned (some (pathNotFound s.path))⟩) ∧
    (∀ top data, client.read reads s.path = ⟨some ⟨top⟩, none⟩ →
      effectiveData top = some data → data.lookup s.key = none →
      fetchSecret s client reads
        = ⟨s, reads ++ [s.path], .returned (some (keyNotFound s.path s.key))⟩) := by
  constructor
  · intro h
    simp [fetchSecret, h, pathNotFound]
  · intro top data h hd hk
    rw [fetchSecret_of_resp s client reads top h, hd]
    simp only [hk]

/-- Witness of C4: no entry at `secret/db`; and the key `user`, present only at
the top level of a nested response, is not found. -/
theorem fetchSecret_not_found_witness :
    fetchSecret ⟨"U".toList, "secret/db".toList, "user".toList, []⟩ (constClient ⟨none, none⟩) []
      = ⟨⟨"U".toList, "secret/db".toList, "user".toList, []⟩, ["secret/db".toList],
          .returned (some (.errorf "Secret (secret/db) not found".toList))⟩ ∧
    fetchSecret ⟨"U".toList, "secret/db".toList, "user".toList, []⟩
        (constClient ⟨some ⟨[("user".toList, .str "root".toList),
          ("data".toList, .map [("pass".toList, .str "x".toList)])]⟩, none⟩) []
      = ⟨⟨"U".toList, "secret/db".toList, "user".toList, []⟩, ["secret/db".toList],
          .returned (some (.errorf "Secret (secret/db#user) not found".toList))⟩ :=
  ⟨(fetchSecret_not_found ⟨"U".toList, "secret/db".toList, "user".toList, []⟩
      (constClient ⟨none, none⟩) []).1 rfl,
   (fetchSecret_not_found ⟨"U".toList, "secret/db".toList, "user".toList, []⟩
      (constClient ⟨some ⟨[("user".toList, .str "root".toList),
        ("data".toList, .map [("pass".toList, .str "x".toList)])]⟩, none⟩) []).2
      _ [("pass".toList, .str "x".toList)] rfl rfl rfl⟩

/-- C5: when the effective data of the response maps `s.key` to a string `v`,
`fetchSecret` returns a nil error, and afterwards `s.value = v` while `s.name`,
`s.path` and `s.key` are what they were. -/
theorem fetchSecret_assigns_value (s : secret) (client : Client) (reads : List GoString)
    (top data : GoMap) (v : GoString)
    (h : client.read reads s.path = ⟨some ⟨top⟩, none⟩)
    (hd : effectiveData top = some data) (hk : data.lookup s.key = some (.str v)) :
    (fetchSecret s client reads).status = .returned none ∧
    (fetchSecret s client reads).s.value = v ∧
    (fetchSecret s client reads).s.name = s.name ∧
    (fetchSecret s client reads).s.path = s.path ∧
    (fetchSecret s client reads).s.key = s.key := by
  rw [fetchSecret_of_resp s client reads top h, hd]
  simp [hk]

/-- Witness of C5: a record holding an old value gets the new one, and keeps
its name, path and key. -/
theorem fetchSecret_assigns_value_witness :
    (fetchSecret ⟨"PW".toList, "kv/db".toList, "pass".toList, "old".toList⟩
      (constClient ⟨some ⟨[("data".toList, .map [("pass".toList, .str "s3cr3t".toList)])]⟩, none⟩)
      []).status = .returned none ∧
    (fetchSecret ⟨"PW".toList, "kv/db".toList, "pass".toList, "old".toList⟩
      (constClient ⟨some ⟨[("data".toList, .map [("pass".toList, .str "s3cr3t".toList)])]⟩, none⟩)
      []).s.value = "s3cr3t".toList ∧
    (fetchSecret ⟨"PW".toList, "kv/db".toList, "pass".toList, "old".toList⟩
      (constClient ⟨some ⟨[("data".toList, .map [("pass".toList, .str "s3cr3t".toList)])]⟩, none⟩)
      []).s.name = "PW".toList ∧
    (fetchSecret ⟨"PW".toList, "kv/db".toList, "pass".toList, "old".toList⟩
      (constClient ⟨some ⟨[("data".toList, .map [("pass".toList, .str "s3cr3t".toList)])]⟩, none⟩)
      []).s.path = "kv/db".toList ∧
    (fetchSecret ⟨"PW".toList, "kv/db".toList, "pass".toList, "old".toList⟩
      (constClient ⟨some ⟨[("data".toList, .map [("pass".toList, .str "s3cr3t".toList)])]⟩, none⟩)
      []).s.key = "pass".toList :=
  fetchSecret_assigns_value ⟨"PW".toList, "kv/db".toList, "pass".toList, "old".toList⟩
    (constClient ⟨some ⟨[("data".toList, .map [("pass".toList, .str "s3cr3t".toList)])]⟩, none⟩)
    [] _ [("pass".toList, .str "s3cr3t".toList)] "s3cr3t".toList rfl rfl rfl

/-! ## fetchSecrets: the first failing fetch -/

theorem fetchSecret_reads (s : secret) (client : Client) (reads : List GoString) :
    (fetchSecret s client reads).reads = reads ++ [s.path] := by
  unfold fetchSecret
  simp only
  repeat' split
  all_goals rfl

theorem parseLoop_value (es : List GoString) (results ds : List secret)
    (h : (parseLoop es results).secrets = some ds) (hr : ∀ x ∈ results, x.value = []) :
    ∀ x ∈ ds, x.value = [] := by
  induction es generalizing results with
  | nil =>
    simp only [parseLoop, Option.some.injEq] at h
    subst h
    exact hr
  | cons e rest ih =>
    unfold parseLoop at h
    simp only at h
    split at h
    · apply ih _ h
      intro x hx
      rcases List.mem_append.mp hx with hx | hx
      · exact hr x hx
      · simp only [List.mem_singleton] at hx
        subst hx
        rfl
    · simp at h

theorem fetchLoop_first_failure (client : Client) (pre post : List secret) (d : secret)
    (e : GoError) (done : List secret) (reads : List GoString)
    (hok : ∀ a b x, pre = a ++ x :: b →
      (fetchSecret x client (reads ++ a.map secret.path)).status = .returned none)
    (hfail : (fetchSecret d client (reads ++ pre.map secret.path)).status = .returned (some e)) :
    (fetchLoop client done (pre ++ d :: post) reads).status = .returned none (some e) ∧
    (fetchLoop client done (pre ++ d :: post) reads).reads
      = reads ++ (pre ++ [d]).map secret.path ∧
    (fetchLoop client done (pre ++ d :: post) reads).objs.drop (done.length + pre.length + 1)
      = post := by
  induction pre generalizing done reads with
  | nil =>
    simp only [List.map_nil, List.append_nil] at hfail
    simp only [List.nil_append, fetchLoop, hfail, fetchSecret_reads, List.map_cons,
      List.map_nil, List.length_nil, Nat.add_zero, true_and]
    rw [List.drop_append_eq_append_drop]
    simp
  | cons x pre ih =>
    have hx := hok [] pre x rfl
    simp only [List.map_nil, List.append_nil] at hx
    simp only [List.cons_append, fetchLoop, hx, fetchSecret_reads]
    have := ih (done ++ [(fetchSecret x client reads).s]) (reads ++ [x.path])
      (by
        intro a b y hy
        have := hok (x :: a) b y (by simp [hy])
        simpa [List.append_assoc] using this)
      (by simpa [List.append_assoc] using hfail)
    simpa [List.append_assoc, Nat.add_assoc, Nat.add_comm, Nat.add_left_comm] using this

/-- C6: when the spec parses to the descriptors `ds` and the descriptor at
index `i` is the first whose fetch returns an error `e` (every earlier one, run
in spec order, returning nil), `fetchSecrets` returns `e` and a nil slice, the
store has been read at the paths of the descriptors up to index `i` in spec
order and at no later one, and the descriptors after index `i` are as parsed,
with an empty value. -/
theorem fetchSecrets_fail_fast (paths : GoString) (client : Client) (reads : List GoString)
    (ds : List secret) (i : Nat) (d : secret) (e : GoError)
    (hparse : parsePaths paths = ⟨some ds, none⟩)
    (hok : ∀ j x, j < i → ds[j]? = some x →
      (fetchSecret x client (reads ++ (ds.take j).map secret.path)).status = .returned none)
    (hd : ds[i]? = some d)
    (hfail : (fetchSecret d client (reads ++ (ds.take i).map secret.path)).status
      = .returned (some e)) :
    (fetchSecrets paths client reads).status = .returned none (some e) ∧
    (fetchSecrets paths client reads).reads = reads ++ (ds.take (i + 1)).map secret.path ∧
    (fetchSecrets paths client reads).objs.drop (i + 1) = ds.drop (i + 1) ∧
    ∀ x ∈ ds.drop (i + 1), x.value = [] := by
  have hi : i < ds.length := by
    rcases Nat.lt_or_ge i ds.length with h | h
    · exact h
    · rw [List.getElem?_eq_none h] at hd
      exact Option.noConfusion hd
  have hget : ds[i] = d := by
    rw [List.getElem?_eq_getElem hi] at hd
    exact Option.some.inj hd
  have hsplit : ds = ds.take i ++ d :: ds.drop (i + 1) := by
    rw [← hget, ← List.drop_eq_getElem_cons hi, List.take_append_drop]
  have hlen : (ds.take i).length = i := by
    rw [List.length_take]
    omega
  have hvals : ∀ x ∈ ds, x.value = [] := by
    apply parseLoop_value (Split paths ',') [] ds
    · unfold parsePaths at hparse
      rw [hparse]
    · simp
  have hpre : ∀ a b x, ds.take i = a ++ x :: b →
      (fetchSecret x client (reads ++ a.map secret.path)).status = .returned none := by
    intro a b x hab
    have hal : a.length < i := by
      have := congrArg List.length hab
      rw [hlen] at this
      simp at this
      omega
    have hds : ds = a ++ x :: (b ++ d :: ds.drop (i + 1)) := by
      conv_lhs => rw [hsplit, hab]
      simp
    have hx : ds[a.length]? = some x := by
      rw [hds, List.getElem?_append_right (Nat.le_refl _)]
      simp
    have hta : ds.take a.length = a := by
      rw [hds]
      simp
    have := hok a.length x hal hx
    rwa [hta] at this
  have key := fetchLoop_first_failure client (ds.take i) (ds.drop (i + 1)) d e [] reads hpre hfail
  have hrun : fetchSecrets paths client reads
      = fetchLoop client [] (ds.take i ++ d :: ds.drop (i + 1)) reads := by
    unfold fetchSecrets
    simp only [hparse]
    rw [← hsplit]
  rw [hrun]
  obtain ⟨k1, k2, k3⟩ := key
  refine ⟨k1, ?_, ?_, ?_⟩
  · rw [k2]
    congr 2
    rw [List.take_succ, List.getElem?_eq_getElem hi, hget]
    rfl
  · simpa [hlen] using k3
  · intro x hx
    exact hvals x (List.mem_of_mem_drop hx)

/-- Witness of C6: three descriptors, the second has no entry in the store; the
error of the second fetch is returned, the store is read at `a` and `b` only,
and the third descriptor keeps its empty value. -/
theorem fetchSecrets_fail_fast_witness :
    (fetchSecrets "a#k#A,b#k#B,c#k#C".toList storeWithoutB []).status
      = .returned none (some (.errorf "Secret (b) not found".toList)) ∧
    (fetchSecrets "a#k#A,b#k#B,c#k#C".toList storeWithoutB []).reads
      = ["a".toList, "b".toList] ∧
    (fetchSecrets "a#k#A,b#k#B,c#k#C".toList storeWithoutB []).objs.drop 2
      = [⟨"C".toList, "c".toList, "k".toList, []⟩] ∧
    ∀ x ∈ [(⟨"C".toList, "c".toList, "k".toList, []⟩ : secret)], x.value = [] :=
  fetchSecrets_fail_fast "a#k#A,b#k#B,c#k#C".toList storeWithoutB []
    [⟨"A".toList, "a".toList, "k".toList, []⟩, ⟨"B".toList, "b".toList, "k".toList, []⟩,
      ⟨"C".toList, "c".toList, "k".toList, []⟩]
    1 ⟨"B".toList, "b".toList, "k".toList, []⟩ (.errorf "Secret (b) not found".toList)
    (by decide)
    (by
      intro j x hj hx
      have hj0 : j = 0 := by omega
      subst hj0
      simp only [List.getElem?_cons_zero, Option.some.injEq] at hx
      subst hx
      decide)
    rfl (by decide)

/-! ## writeSecrets -/

theorem File.Write_ok (fs : FileSystem) (f : File) (p : GoString)
    (h : ∀ r, fs.room = some r → p.length ≤ r) :
    f.Write fs p =
      ({ fs with
          files := fun q => if q = f.name then some ((fs.files f.name).getD [] ++ p)
            else fs.files q
          room := fs.room.map (fun r => r - p.length) }, p.length, none) := by
  unfold File.Write
  cases hr : fs.room with
  | none => simp
  | some r =>
    have := h r hr
    simp [Nat.min_eq_right this]

theorem Writer.Flush_inv (loc out : GoString) (k : Nat) (fs : FileSystem) (b : Writer)
    (h : WriterInv loc out k (fs, b)) :
    (b.Flush fs).2.2 = none ∧ (b.Flush fs).2.1.buf = [] ∧
    WriterInv loc out k ((b.Flush fs).1, (b.Flush fs).2.1) := by
  obtain ⟨hname, herr, ⟨old, hold, hout⟩, hroom⟩ := h
  simp only at hname herr hold hout hroom
  unfold Writer.Flush
  rw [herr]
  simp only
  by_cases hb : b.buf = []
  · rw [if_pos hb]
    refine ⟨rfl, hb, hname, herr, ⟨old, hold, hout⟩, hroom⟩
  · rw [if_neg hb, File.Write_ok fs b.wr b.buf (fun r hr => by have := hroom r hr; omega)]
    simp only [Nat.lt_irrefl, if_false]
    refine ⟨trivial, trivial, hname, rfl, ⟨out, ?_, by simp⟩, ?_⟩
    · simp [hname, hold, hout]
    · intro r hr
      simp only [List.length_nil, Nat.zero_add]
      cases hfr : fs.room with
      | none => simp [hfr] at hr
      | some r0 =>
        simp only [hfr, Option.map_some', Option.some.injEq] at hr
        have := hroom r0 hfr
        omega

theorem Writer.writeChar_inv (loc out : GoString) (k : Nat) (st : FileSystem × Writer)
    (c : Char) (h : WriterInv loc out (k + 1) st) :
    WriterInv loc (out ++ [c]) k (Writer.writeChar st c) := by
  obtain ⟨fs, b⟩ := st
  have h' := h
  obtain ⟨hname, herr, ⟨old, hold, hout⟩, hroom⟩ := h
  simp only at hname herr hold hout hroom
  unfold Writer.writeChar
  simp only [herr]
  by_cases hlt : b.buf.length < defaultBufSize
  · rw [if_pos hlt]
    refine ⟨hname, rfl, ⟨old, hold, by simp [← hout]⟩, ?_⟩
    intro r hr
    have := hroom r hr
    simp only [List.length_append, List.length_singleton]
    omega
  · rw [if_neg hlt]
    obtain ⟨f1, f2, f3name, f3err, ⟨old', hold', hout'⟩, f3room⟩ :=
      Writer.Flush_inv loc out (k + 1) fs b h'
    simp only at f3name f3err hold' hout' f3room
    generalize b.Flush fs = res at f1 f2 f3name f3err hold' hout' f3room
    obtain ⟨fs', b', e'⟩ := res
    simp only at f1 f2 f3name f3err hold' hout' f3room
    subst f1
    simp only
    refine ⟨f3name, f3err, ⟨old', hold', by simp [← hout', f2]⟩, ?_⟩
    intro r hr
    have := f3room r hr
    simp only [List.length_append, List.length_singleton, f2, List.length_nil] at this ⊢
    omega

theorem Writer.foldl_writeChar_inv (loc : GoString) (s out : GoString) (k : Nat)
    (st : FileSystem × Writer) (h : WriterInv loc out (s.length + k) st) :
    WriterInv loc (out ++ s) k (s.foldl Writer.writeChar st) := by
  induction s generalizing out st with
  | nil => simpa using h
  | cons c cs ih =>
    simp only [List.foldl_cons]
    have h1 : WriterInv loc out ((cs.length + k) + 1) st := by
      simpa [Nat.add_assoc, Nat.add_comm, Nat.add_left_comm] using h
    have := ih (out ++ [c]) (Writer.writeChar st c) (Writer.writeChar_inv loc out _ st c h1)
    simpa using this

theorem render_cons (s : secret) (rest : List secret) :
    render (s :: rest) = secretLine s ++ render rest := by
  simp [render, secretLine]

theorem writeLoop_inv (loc : GoString) (secrets : List secret) (out : GoString) (k : Nat)
    (fs : FileSystem) (w : Writer)
    (h : WriterInv loc out ((render secrets).length + k) (fs, w)) :
    WriterInv loc (out ++ render secrets) k (writeLoop secrets fs w) := by
  induction secrets generalizing out fs w with
  | nil => simpa [render, writeLoop] using h
  | cons s rest ih =>
    simp only [writeLoop, Writer.WriteString]
    have h1 : WriterInv loc out ((secretLine s).length + ((render rest).length + k)) (fs, w) := by
      rw [render_cons, List.length_append, Nat.add_assoc] at h
      exact h
    have h2 := Writer.foldl_writeChar_inv loc (secretLine s) out _ (fs, w) h1
    have := ih (out ++ secretLine s) _ _ h2
    rw [render_cons, ← List.append_assoc]
    exact this

theorem writeSecrets_writable (fs : FileSystem) (secrets : List secret) (location : GoString)
    (hcreate : fs.createErr (MkdirAll fs (fs.Dir location)).1.dirs location = none)
    (hroom : ∀ r, fs.room = some r → (render secrets).length ≤ r) :
    (writeSecrets fs secrets location).2 = none ∧
    (writeSecrets fs secrets location).1.files location = some (render secrets) := by
  have hmk : (MkdirAll fs (fs.Dir location)).1.createErr = fs.createErr ∧
      (MkdirAll fs (fs.Dir location)).1.room = fs.room := by
    unfold MkdirAll
    split <;> exact ⟨rfl, rfl⟩
  unfold writeSecrets
  simp only
  generalize MkdirAll fs (fs.Dir location) = mk at hcreate hmk
  obtain ⟨fs1, e1⟩ := mk
  simp only at hcreate hmk
  rw [← hmk.1] at hcreate
  simp only [Create, hcreate]
  have hinv : WriterInv location [] ((render secrets).length + 0)
      ({ fs1 with files := fun p => if p = location then some [] else fs1.files p },
        NewWriter ⟨location⟩) := by
    refine ⟨rfl, rfl, ⟨[], by simp, rfl⟩, ?_⟩
    intro r hr
    simp only at hr
    rw [hmk.2] at hr
    simpa [NewWriter] using hroom r hr
  have h2 := writeLoop_inv location secrets [] 0 _ _ hinv
  generalize writeLoop secrets _ _ = st at h2
  obtain ⟨fs2, w2⟩ := st
  obtain ⟨-, f2, -, -, ⟨old, hold, hout⟩, -⟩ := Writer.Flush_inv location _ 0 fs2 w2 h2
  generalize w2.Flush fs2 = res at f2 hold hout
  obtain ⟨fs3, w3, e3⟩ := res
  simp only at f2 hold hout
  refine ⟨trivial, ?_⟩
  rw [hold]
  rw [f2] at hout
  simpa using hout

theorem render_append (xs ys : List secret) : render (xs ++ ys) = render xs ++ render ys := by
  induction xs with
  | nil => rfl
  | cons x xs ih => simp [render, ih]

/-- C7: at a destination where the file can be created and the device takes
the whole output, `writeSecrets` returns a nil error and leaves the file with
exactly the lines `name=value\n` of the secrets, concatenated in sequence
order, whatever the file held before. -/
theorem writeSecrets_contents (fs : FileSystem) (secrets : List secret) (location : GoString)
    (hcreate : fs.createErr (MkdirAll fs (fs.Dir location)).1.dirs location = none)
    (hroom : ∀ r, fs.room = some r → (render secrets).length ≤ r) :
    (writeSecrets fs secrets location).2 = none ∧
    (writeSecrets fs secrets location).1.files location = some (render secrets) :=
  writeSecrets_writable fs secrets location hcreate hroom

/-- Witness of C7: the example of the specification, written over a file that
held `OLD=1`. -/
theorem writeSecrets_contents_witness :
    (writeSecrets (fsWithFile (some 64) "/tmp/out/env.txt".toList "OLD=1\n".toList)
      [⟨"DB_PASS".toList, [], [], "s3cr3t".toList⟩, ⟨"API_KEY".toList, [], [], "abc123".toList⟩]
      "/tmp/out/env.txt".toList).2 = none ∧
    (writeSecrets (fsWithFile (some 64) "/tmp/out/env.txt".toList "OLD=1\n".toList)
      [⟨"DB_PASS".toList, [], [], "s3cr3t".toList⟩, ⟨"API_KEY".toList, [], [], "abc123".toList⟩]
      "/tmp/out/env.txt".toList).1.files "/tmp/out/env.txt".toList
      = some "DB_PASS=s3cr3t\nAPI_KEY=abc123\n".toList :=
  writeSecrets_contents (fsWithFile (some 64) "/tmp/out/env.txt".toList "OLD=1\n".toList)
    [⟨"DB_PASS".toList, [], [], "s3cr3t".toList⟩, ⟨"API_KEY".toList, [], [], "abc123".toList⟩]
    "/tmp/out/env.txt".toList rfl
    (by
      intro r hr
      cases hr
      decide)

theorem writeSecrets_create_error (fs : FileSystem) (secrets : List secret)
    (location : GoString) (err : GoError)
    (h : fs.createErr (MkdirAll fs (fs.Dir location)).1.dirs location = some err) :
    (writeSecrets fs secrets location).2 = some err := by
  have hmk : (MkdirAll fs (fs.Dir location)).1.createErr = fs.createErr := by
    unfold MkdirAll
    split <;> rfl
  rw [← hmk] at h
  simp [writeSecrets, Create, h]

theorem writeSecrets_nil_of_created (fs : FileSystem) (secrets : List secret)
    (location : GoString)
    (h : fs.createErr (MkdirAll fs (fs.Dir location)).1.dirs location = none) :
    (writeSecrets fs secrets location).2 = none := by
  have hmk : (MkdirAll fs (fs.Dir location)).1.createErr = fs.createErr := by
    unfold MkdirAll
    split <;> rfl
  rw [← hmk] at h
  simp [writeSecrets, Create, h]

/-- C8, the code at a failing input: on a device with room for four characters
the file is created, the final `Flush` fails with `no space left on device`
after writing `A=1\n`, and `writeSecrets` still returns a nil error, the line
`B=2` missing from the file. -/
theorem writeSecrets_drops_write_error :
    (writeSecrets (emptyFS (some 4))
      [⟨"A".toList, [], [], "1".toList⟩, ⟨"B".toList, [], [], "2".toList⟩] "env".toList).2 = none ∧
    (writeSecrets (emptyFS (some 4))
      [⟨"A".toList, [], [], "1".toList⟩, ⟨"B".toList, [], [], "2".toList⟩] "env".toList).1.files
        "env".toList = some "A=1\n".toList ∧
    (Writer.Flush
      (writeLoop [⟨"A".toList, [], [], "1".toList⟩, ⟨"B".toList, [], [], "2".toList⟩]
        (Create (MkdirAll (emptyFS (some 4)) ((emptyFS (some 4)).Dir "env".toList)).1
          "env".toList).1 (NewWriter ⟨"env".toList⟩)).1
      (writeLoop [⟨"A".toList, [], [], "1".toList⟩, ⟨"B".toList, [], [], "2".toList⟩]
        (Create (MkdirAll (emptyFS (some 4)) ((emptyFS (some 4)).Dir "env".toList)).1
          "env".toList).1 (NewWriter ⟨"env".toList⟩)).2).2.2
      = some (.external "no space left on device".toList) := by
  decide

/-- C9, as stated, fails: for two secrets named `A` the file holds two lines
for `A`, the first with the value of the first secret, not the single line
`A=2`. -/
theorem writeSecrets_duplicate_not_single :
    ((writeSecrets (emptyFS none)
      [⟨"A".toList, [], [], "1".toList⟩, ⟨"A".toList, [], [], "2".toList⟩] "env".toList).1.files
        "env".toList).map (linesFor "A".toList) = some ["A=1".toList, "A=2".toList] ∧
    ((writeSecrets (emptyFS none)
      [⟨"A".toList, [], [], "1".toList⟩, ⟨"A".toList, [], [], "2".toList⟩] "env".toList).1.files
        "env".toList).map (linesFor "A".toList) ≠ some ["A=2".toList] := by
  decide

/-- C9, amended: when two secrets of the sequence have the same name, the file
written at a destination that can be created and written holds the line of
each of them, in sequence order: the line of the earlier one is not
overwritten, and the line of the later one comes after it. -/
theorem writeSecrets_duplicate_names (fs : FileSystem) (pre mid post : List secret)
    (a b : secret) (location : GoString) (hname : a.name = b.name)
    (hcreate : fs.createErr (MkdirAll fs (fs.Dir location)).1.dirs location = none)
    (hroom : ∀ r, fs.room = some r → (render (pre ++ a :: (mid ++ b :: post))).length ≤ r) :
    (writeSecrets fs (pre ++ a :: (mid ++ b :: post)) location).1.files location
      = some (render pre ++ (b.name ++ "=".toList ++ a.value ++ "\n".toList) ++ render mid
          ++ (b.name ++ "=".toList ++ b.value ++ "\n".toList) ++ render post) := by
  rw [(writeSecrets_writable fs _ location hcreate hroom).2, render_append]
  simp [render, render_append, hname]

/-- Witness of C9 amended: two secrets named `A` give the two lines `A=1` and
`A=2`. -/
theorem writeSecrets_duplicate_names_witness :
    (writeSecrets (emptyFS none)
      [⟨"A".toList, [], [], "1".toList⟩, ⟨"A".toList, [], [], "2".toList⟩] "env".toList).1.files
        "env".toList = some "A=1\nA=2\n".toList :=
  writeSecrets_duplicate_names (emptyFS none) [] [] []
    ⟨"A".toList, [], [], "1".toList⟩ ⟨"A".toList, [], [], "2".toList⟩ "env".toList rfl rfl
    (fun _ hr => Option.noConfusion hr)

/-! ## parsePaths: what it returns on every input -/

theorem length_eq_three {α : Type} (l : List α) (h : l.length = 3) :
    ∃ a b c, l = [a, b, c] := by
  match l, h with
  | [a, b, c], _ => exact ⟨a, b, c, rfl⟩

theorem parseLoop_eq (es : List GoString) (results : List secret) :
    parseLoop es results =
      match firstBad es with
      | some e => ⟨none, some (.errorf ("Invalid entry ".toList ++ TrimSpace e))⟩
      | none => ⟨some (results ++ es.map segmentSecret), none⟩ := by
  induction es generalizing results with
  | nil => simp [parseLoop, firstBad]
  | cons e rest ih =>
    unfold parseLoop
    simp only
    split
    · rename_i t0 t1 t2 heq
      have hlen : (Split (TrimSpace e) '#').length = 3 := by rw [heq]; rfl
      have hseg : segmentSecret e = { path := t0, key := t1, name := t2, value := [] } := by
        simp [segmentSecret, heq]
      have hfb : firstBad (e :: rest) = firstBad rest := by
        simp [firstBad, List.find?_cons, hlen]
      rw [ih, hfb]
      cases firstBad rest with
      | some b => rfl
      | none => simp [hseg]
    · rename_i hne
      have hlen : (Split (TrimSpace e) '#').length ≠ 3 := by
        intro h3
        obtain ⟨a, b, c, habc⟩ := length_eq_three _ h3
        exact hne a b c habc
      have hfb : firstBad (e :: rest) = some e := by
        simp [firstBad, List.find?_cons, hlen]
      rw [hfb]

theorem firstBad_eq_none (es : List GoString) :
    firstBad es = none ↔ ∀ e ∈ es, (Split (TrimSpace e) '#').length = 3 := by
  simp [firstBad, List.find?_eq_none]

theorem parsePaths_some (paths : GoString) (ds : List secret)
    (h : (parsePaths paths).secrets = some ds) :
    firstBad (Split paths ',') = none ∧ ds = (Split paths ',').map segmentSecret := by
  unfold parsePaths at h
  rw [parseLoop_eq] at h
  cases hfb : firstBad (Split paths ',') with
  | some b =>
    rw [hfb] at h
    simp at h
  | none =>
    rw [hfb] at h
    simp only [List.nil_append, Option.some.injEq] at h
    exact ⟨rfl, h.symm⟩

theorem Join_Split (sep : Char) (s : GoString) : Join sep (Split s sep) = s := by
  induction s with
  | nil => rfl
  | cons c cs ih =>
    unfold Split
    by_cases hc : c = sep
    · rw [if_pos hc]
      cases hs : Split cs sep with
      | nil => exact absurd hs (Split_ne_nil cs sep)
      | cons t ts =>
        rw [hs] at ih
        simp [Join, ih, hc]
    · rw [if_neg hc]
      cases hs : Split cs sep with
      | nil => exact absurd hs (Split_ne_nil cs sep)
      | cons t ts =>
        rw [hs] at ih
        cases ts with
        | nil =>
          simp only [Join] at ih ⊢
          rw [ih]
        | cons b r =>
          simp only [Join, List.cons_append] at ih ⊢
          rw [ih]

theorem segmentSecret_text (e : GoString) (h : (Split (TrimSpace e) '#').length = 3) :
    (segmentSecret e).path ++ '#' :: ((segmentSecret e).key ++ '#' :: (segmentSecret e).name)
      = TrimSpace e := by
  obtain ⟨a, b, c, habc⟩ := length_eq_three _ h
  have := Join_Split '#' (TrimSpace e)
  rw [habc] at this
  simp only [segmentSecret, habc]
  simpa [Join] using this

/-- C11, as stated, fails: `parsePaths` succeeds on `##`, and the secret it
returns has an empty name, an empty path and an empty key. -/
theorem parsePaths_empty_fields :
    ¬ ∀ ds, parsePaths "##".toList = ⟨some ds, none⟩ →
      ∀ s ∈ ds, s.name ≠ [] ∧ s.path ≠ [] ∧ s.key ≠ [] := by
  intro h
  have := h [⟨[], [], [], []⟩] (by decide) ⟨[], [], [], []⟩ (by simp)
  exact this.1 rfl

/-- C11, amended: on every spec string on which `parsePaths` succeeds, the
returned secrets stand, in order, for the comma-separated entries, one for
each: the trimmed entry splits on `#` into exactly the three segments path,
key and name of its secret (so `path#key#name` is the trimmed entry and no
field holds a `#`), and the value is empty; no segment is checked for
emptiness. -/
theorem parsePaths_fields (paths : GoString) (ds : List secret)
    (h : parsePaths paths = ⟨some ds, none⟩) :
    List.Forall₂
      (fun e s => Split (TrimSpace e) '#' = [s.path, s.key, s.name] ∧ s.value = [])
      (Split paths ',') ds ∧
    (∀ s ∈ ds, s.value = []) ∧
    ds.map (fun s => s.path ++ '#' :: (s.key ++ '#' :: s.name))
      = (Split paths ',').map TrimSpace := by
  obtain ⟨hfb, hds⟩ := parsePaths_some paths ds (by rw [h])
  rw [firstBad_eq_none] at hfb
  subst hds
  refine ⟨?_, ?_, ?_⟩
  · rw [List.forall₂_map_right_iff, List.forall₂_same]
    intro e he
    obtain ⟨a, b, c, habc⟩ := length_eq_three _ (hfb e he)
    simp [segmentSecret, habc]
  · intro s hs
    obtain ⟨e, -, rfl⟩ := List.mem_map.mp hs
    rfl
  · rw [List.map_map]
    apply List.map_congr_left
    intro e he
    exact segmentSecret_text e (hfb e he)

/-- Witness of C11 amended: the entries `#key#name` and `##` are accepted with
their empty segments. -/
theorem parsePaths_fields_witness :
    List.Forall₂
      (fun e s => Split (TrimSpace e) '#' = [s.path, s.key, s.name] ∧ s.value = [])
      (Split " #key#name, ##".toList ',')
      [(⟨"name".toList, [], "key".toList, []⟩ : secret), ⟨[], [], [], []⟩] ∧
    (∀ s ∈ [(⟨"name".toList, [], "key".toList, []⟩ : secret), ⟨[], [], [], []⟩], s.value = []) ∧
    [(⟨"name".toList, [], "key".toList, []⟩ : secret), ⟨[], [], [], []⟩].map
        (fun s => s.path ++ '#' :: (s.key ++ '#' :: s.name))
      = (Split " #key#name, ##".toList ',').map TrimSpace :=
  parsePaths_fields " #key#name, ##".toList
    [⟨"name".toList, [], "key".toList, []⟩, ⟨[], [], [], []⟩] (by decide)

/-- C12, as stated, fails: for the spec ` a ,b#c#d` the first entry that does
not split into three segments is ` a `, and the message is `Invalid entry a`,
not `Invalid entry ` followed by the entry as it appears in the spec. -/
theorem parsePaths_error_not_raw :
    firstBad (Split " a ,b#c#d".toList ',') = some " a ".toList ∧
    (parsePaths " a ,b#c#d".toList).err = some (.errorf "Invalid entry a".toList) ∧
    (parsePaths " a ,b#c#d".toList).err
      ≠ some (.errorf ("Invalid entry ".toList ++ " a ".toList)) := by
  decide

/-- C12, amended: the error of `parsePaths`, when there is one, is
`Invalid entry ` followed by the first comma-separated entry that does not
split into exactly three `#`-separated segments, without its surrounding white
space; there is an error exactly when there is such an entry, and the result is
then nil. -/
theorem parsePaths_error (paths : GoString) :
    (parsePaths paths).err
      = (firstBad (Split paths ',')).map
          (fun e => GoError.errorf ("Invalid entry ".toList ++ TrimSpace e)) ∧
    ((parsePaths paths).err ≠ none → (parsePaths paths).secrets = none) := by
  unfold parsePaths
  rw [parseLoop_eq]
  cases firstBad (Split paths ',') with
  | some b => simp
  | none => simp

/-- Witness of C12 amended: the second entry is the first bad one and is named
without its white space. -/
theorem parsePaths_error_witness :
    (parsePaths "p#k#n,  x#y , z".toList).err = some (.errorf "Invalid entry x#y".toList) ∧
    (parsePaths "p#k#n,  x#y , z".toList).secrets = none :=
  ⟨(parsePaths_error "p#k#n,  x#y , z".toList).1,
   (parsePaths_error "p#k#n,  x#y , z".toList).2 (by decide)⟩

/-! ## parsePaths: entries with two separators, and the characters of a field -/

/-- C16: when every comma-separated entry of the spec string, once trimmed,
holds exactly two `#`, `parsePaths` succeeds and returns, in order, one secret
per entry made of its three segments as they are, empty or not: `#key#name`
gives an empty path, and `##` gives an empty path, key and name. -/
theorem parsePaths_accepts (paths : GoString)
    (h : ∀ e ∈ Split paths ',', (TrimSpace e).count '#' = 2) :
    parsePaths paths = ⟨some ((Split paths ',').map segmentSecret), none⟩ := by
  have hfb : firstBad (Split paths ',') = none := by
    rw [firstBad_eq_none]
    intro e he
    rw [length_Split, h e he]
  unfold parsePaths
  rw [parseLoop_eq, hfb]
  rfl

/-- Witness of C16: `#key#name` and `##`. -/
theorem parsePaths_accepts_witness :
    parsePaths "#key#name".toList = ⟨some [⟨"name".toList, [], "key".toList, []⟩], none⟩ ∧
    parsePaths "##".toList = ⟨some [⟨[], [], [], []⟩], none⟩ :=
  ⟨parsePaths_accepts "#key#name".toList (by decide),
   parsePaths_accepts "##".toList (by decide)⟩

theorem Split_not_mem (sep : Char) (s : GoString) : ∀ t ∈ Split s sep, sep ∉ t := by
  induction s with
  | nil =>
    intro t ht
    simp only [Split, List.mem_singleton] at ht
    subst ht
    simp
  | cons c cs ih =>
    intro t ht
    unfold Split at ht
    by_cases hc : c = sep
    · rw [if_pos hc] at ht
      rcases List.mem_cons.mp ht with rfl | ht
      · simp
      · exact ih t ht
    · rw [if_neg hc] at ht
      cases hs : Split cs sep with
      | nil => exact absurd hs (Split_ne_nil cs sep)
      | cons u us =>
        rw [hs] at ht ih
        rcases List.mem_cons.mp ht with rfl | ht
        · intro hmem
          rcases List.mem_cons.mp hmem with h1 | h1
          · exact hc h1.symm
          · exact ih u (by simp) h1
        · exact ih t (List.mem_cons_of_mem _ ht)

theorem Split_subset (sep : Char) (s : GoString) : ∀ t ∈ Split s sep, ∀ x ∈ t, x ∈ s := by
  induction s with
  | nil =>
    intro t ht x hx
    simp only [Split, List.mem_singleton] at ht
    subst ht
    exact hx
  | cons c cs ih =>
    intro t ht x hx
    unfold Split at ht
    by_cases hc : c = sep
    · rw [if_pos hc] at ht
      rcases List.mem_cons.mp ht with rfl | ht
      · simp at hx
      · exact List.mem_cons_of_mem _ (ih t ht x hx)
    · rw [if_neg hc] at ht
      cases hs : Split cs sep with
      | nil => exact absurd hs (Split_ne_nil cs sep)
      | cons u us =>
        rw [hs] at ht ih
        rcases List.mem_cons.mp ht with rfl | ht
        · rcases List.mem_cons.mp hx with rfl | hx
          · simp
          · exact List.mem_cons_of_mem _ (ih u (by simp) x hx)
        · exact List.mem_cons_of_mem _ (ih t (List.mem_cons_of_mem _ ht) x hx)

theorem trimRightFunc_subset (p : Char → Bool) (s : GoString) :
    ∀ x ∈ trimRightFunc p s, x ∈ s := by
  induction s with
  | nil => simp [trimRightFunc]
  | cons c cs ih =>
    intro x hx
    unfold trimRightFunc at hx
    cases hr : trimRightFunc p cs with
    | nil =>
      rw [hr] at hx
      simp only at hx
      split at hx
      · simp at hx
      · simp only [List.mem_singleton] at hx
        simp [hx]
    | cons r rs =>
      rw [hr] at hx ih
      simp only at hx
      rcases List.mem_cons.mp hx with rfl | hx
      · simp
      · exact List.mem_cons_of_mem _ (ih x hx)

theorem TrimSpace_subset (s : GoString) : ∀ x ∈ TrimSpace s, x ∈ s := by
  intro x hx
  unfold TrimSpace at hx
  exact (List.dropWhile_sublist isSpace).subset (trimRightFunc_subset isSpace _ x hx)

theorem segment_clean (paths e t : GoString) (he : e ∈ Split paths ',')
    (ht : t ∈ Split (TrimSpace e) '#') : ',' ∉ t ∧ '#' ∉ t := by
  refine ⟨?_, Split_not_mem '#' _ t ht⟩
  intro hmem
  have h1 := Split_subset '#' _ t ht ',' hmem
  have h2 := TrimSpace_subset e ',' h1
  exact Split_not_mem ',' paths e he h2

/-- C17: on every spec string on which `parsePaths` succeeds, no path, key or
name of a returned secret holds the character `,` or the character `#`. -/
theorem parsePaths_no_separator (paths : GoString) (ds : List secret)
    (h : parsePaths paths = ⟨some ds, none⟩) :
    ∀ s ∈ ds, (',' ∉ s.path ∧ '#' ∉ s.path) ∧ (',' ∉ s.key ∧ '#' ∉ s.key) ∧
      (',' ∉ s.name ∧ '#' ∉ s.name) := by
  obtain ⟨hfb, hds⟩ := parsePaths_some paths ds (by rw [h])
  rw [firstBad_eq_none] at hfb
  subst hds
  intro s hs
  obtain ⟨e, he, rfl⟩ := List.mem_map.mp hs
  obtain ⟨a, b, c, habc⟩ := length_eq_three _ (hfb e he)
  have hseg : segmentSecret e = { path := a, key := b, name := c, value := [] } := by
    simp [segmentSecret, habc]
  rw [hseg]
  exact ⟨segment_clean paths e a he (by simp [habc]),
    segment_clean paths e b he (by simp [habc]),
    segment_clean paths e c he (by simp [habc])⟩

/-- Witness of C17: the second secret of a spec with two entries. -/
theorem parsePaths_no_separator_witness :
    (',' ∉ "kv/app".toList ∧ '#' ∉ "kv/app".toList) ∧
    (',' ∉ "token".toList ∧ '#' ∉ "token".toList) ∧
    (',' ∉ "API KEY".toList ∧ '#' ∉ "API KEY".toList) :=
  parsePaths_no_separator "kv/db#pass#DB, kv/app#token#API KEY".toList
    [⟨"DB".toList, "kv/db".toList, "pass".toList, []⟩,
      ⟨"API KEY".toList, "kv/app".toList, "token".toList, []⟩] (by decide)
    ⟨"API KEY".toList, "kv/app".toList, "token".toList, []⟩ (by simp)

/-! ## fetchSecret: client errors, panics, and the record on failure -/

theorem fetchSecret_client_error_aux (s : secret) (client : Client) (reads : List GoString)
    (e : GoError) (h : (client.read reads s.path).err = some e) :
    fetchSecret s client reads = ⟨s, reads ++ [s.path], .returned (some e)⟩ := by
  unfold fetchSecret
  simp only [h]

/-- C13: when the read of `s.path` fails with the error `e`, `fetchSecret`
returns exactly `e`, whatever response came with it (no key is looked up), the
record is untouched, and the store has been read once. -/
theorem fetchSecret_client_error (s : secret) (client : Client) (reads : List GoString)
    (e : GoError) (h : (client.read reads s.path).err = some e) :
    fetchSecret s client reads = ⟨s, reads ++ [s.path], .returned (some e)⟩ :=
  fetchSecret_client_error_aux s client reads e h

/-- Witness of C13: the client fails with `connection refused` and hands back a
response in which the key holds a number; the error comes back as it is. -/
theorem fetchSecret_client_error_witness :
    fetchSecret ⟨"N".toList, "kv/a".toList, "k".toList, []⟩
        (constClient ⟨some ⟨[("k".toList, .other "5".toList)]⟩,
          some (.external "connection refused".toList)⟩) ["kv/z".toList]
      = ⟨⟨"N".toList, "kv/a".toList, "k".toList, []⟩, ["kv/z".toList, "kv/a".toList],
          .returned (some (.external "connection refused".toList))⟩ :=
  fetchSecret_client_error ⟨"N".toList, "kv/a".toList, "k".toList, []⟩
    (constClient ⟨some ⟨[("k".toList, .other "5".toList)]⟩,
      some (.external "connection refused".toList)⟩) ["kv/z".toList]
    (.external "connection refused".toList) rfl

theorem effectiveData_eq_none (top : GoMap) :
    effectiveData top = none ↔
      ∃ v, top.lookup "data".toList = some v ∧ v.isNil = false ∧ v.assertMap = none := by
  unfold effectiveData
  cases hd : GoMap.lookup top "data".toList with
  | none => simp
  | some d => cases d <;> simp [Value.isNil, Value.assertMap]

/-- C15: for a read that succeeds with a response, `fetchSecret` panics exactly
when the non-null `"data"` entry of the response is not a mapping or the value
under `s.key` in the effective data is not a string (the nil value included);
when it panics the record is untouched; otherwise it returns, either with nil
and the value assigned or with the key-not-found error. -/
theorem fetchSecret_panics_iff (s : secret) (client : Client) (reads : List GoString)
    (top : GoMap) (h : client.read reads s.path = ⟨some ⟨top⟩, none⟩) :
    ((fetchSecret s client reads).status = .panicked ↔
      (∃ v, top.lookup "data".toList = some v ∧ v.isNil = false ∧ v.assertMap = none) ∨
      (∃ data v, effectiveData top = some data ∧ data.lookup s.key = some v ∧
        v.assertString = none)) ∧
    ((fetchSecret s client reads).status = .panicked → (fetchSecret s client reads).s = s) ∧
    ((fetchSecret s client reads).status ≠ .panicked →
      (∃ v, (fetchSecret s client reads).s = { s with value := v } ∧
        (fetchSecret s client reads).status = .returned none) ∨
      ((fetchSecret s client reads).s = s ∧
        (fetchSecret s client reads).status
          = .returned (some (keyNotFound s.path s.key)))) := by
  rw [fetchSecret_of_resp s client reads top h, ← effectiveData_eq_none]
  cases hd : effectiveData top with
  | none => simp
  | some data =>
    cases hk : GoMap.lookup data s.key with
    | none => simp [hk]
    | some val => cases val <;> simp [hk, Value.assertString]

/-- Witness of C15: a number under the key makes `fetchSecret` panic, the record
keeping its old value. -/
theorem fetchSecret_panics_iff_witness :
    (fetchSecret ⟨"N".toList, "kv/a".toList, "port".toList, "old".toList⟩
        (constClient ⟨some ⟨[("data".toList, .map [("port".toList, .other "5432".toList)])]⟩,
          none⟩) []).status = .panicked ∧
    (fetchSecret ⟨"N".toList, "kv/a".toList, "port".toList, "old".toList⟩
        (constClient ⟨some ⟨[("data".toList, .map [("port".toList, .other "5432".toList)])]⟩,
          none⟩) []).s = ⟨"N".toList, "kv/a".toList, "port".toList, "old".toList⟩ :=
  have h := fetchSecret_panics_iff ⟨"N".toList, "kv/a".toList, "port".toList, "old".toList⟩
    (constClient ⟨some ⟨[("data".toList, .map [("port".toList, .other "5432".toList)])]⟩, none⟩)
    [] _ rfl
  have hp := h.1.mpr (Or.inr ⟨[("port".toList, .other "5432".toList)], .other "5432".toList,
    rfl, rfl, rfl⟩)
  ⟨hp, h.2.1 hp⟩

/-- C19: whenever `fetchSecret` returns an error, the record it was given is
unchanged, value included; the error is the client's, or the path-not-found or
the key-not-found error. -/
theorem fetchSecret_error_unchanged (s : secret) (client : Client) (reads : List GoString)
    (e : GoError) (h : (fetchSecret s client reads).status = .returned (some e)) :
    (fetchSecret s client reads).s = s ∧
    ((client.read reads s.path).err = some e ∨ e = pathNotFound s.path ∨
      e = keyNotFound s.path s.key) := by
  unfold fetchSecret at h ⊢
  simp only at h ⊢
  cases herr : (client.read reads s.path).err with
  | some err =>
    simp only [herr] at h ⊢
    simp only [Completion.returned.injEq, Option.some.injEq] at h
    simp [h]
  | none =>
    simp only [herr] at h ⊢
    cases hresp : (client.read reads s.path).resp with
    | none =>
      simp only [hresp] at h ⊢
      simp only [Completion.returned.injEq, Option.some.injEq] at h
      simp [← h, pathNotFound]
    | some resp =>
      simp only [hresp] at h ⊢
      split at h
      · simp at h
      · split at h
        · simp only [Completion.returned.injEq, Option.some.injEq] at h
          rename_i hdata _ hk
          simp [hdata, hk, ← h, keyNotFound]
        · split at h <;> simp at h

/-- Witness of C19: the key is missing, and the record keeps the value it
had. -/
theorem fetchSecret_error_unchanged_witness :
    (fetchSecret ⟨"N".toList, "kv/a".toList, "k".toList, "old".toList⟩
        (constClient ⟨some ⟨[("other".toList, .str "x".toList)]⟩, none⟩) []).s
      = ⟨"N".toList, "kv/a".toList, "k".toList, "old".toList⟩ ∧
    (((constClient ⟨some ⟨[("other".toList, .str "x".toList)]⟩, none⟩).read []
          "kv/a".toList).err
        = some (.errorf "Secret (kv/a#k) not found".toList) ∨
      GoError.errorf "Secret (kv/a#k) not found".toList = pathNotFound "kv/a".toList ∨
      GoError.errorf "Secret (kv/a#k) not found".toList
        = keyNotFound "kv/a".toList "k".toList) :=
  fetchSecret_error_unchanged ⟨"N".toList, "kv/a".toList, "k".toList, "old".toList⟩
    (constClient ⟨some ⟨[("other".toList, .str "x".toList)]⟩, none⟩) []
    (.errorf "Secret (kv/a#k) not found".toList) (by decide)

/-! ## secret.String -/

/-- C18: `secret.String` shows the value only through its emptiness: two
secrets with the same name, path and key whose values are both empty or both
non-empty have the same text; for a non-empty value the text ends in `[...]`,
for an empty value it ends in `=`. -/
theorem secret_String_hides_value (s t : secret) (hn : s.name = t.name)
    (hp : s.path = t.path) (hk : s.key = t.key) (hv : s.value = [] ↔ t.value = []) :
    s.String = t.String ∧
    (s.value ≠ [] →
      s.String = "(".toList ++ s.name ++ "): ".toList ++ s.path ++ " ".toList ++ s.key
        ++ "=[...]".toList) ∧
    (s.value = [] →
      s.String = "(".toList ++ s.name ++ "): ".toList ++ s.path ++ " ".toList ++ s.key
        ++ "=".toList) := by
  refine ⟨?_, ?_, ?_⟩
  · unfold secret.String
    by_cases hs : s.value = []
    · have ht := hv.mp hs
      simp [hs, ht, hn, hp, hk]
    · have ht : t.value ≠ [] := fun h => hs (hv.mpr h)
      simp [hs, ht, hn, hp, hk]
  · intro hs
    simp [secret.String, hs]
  · intro hs
    simp [secret.String, hs]

/-- Witness of C18: the values `hunter2` and `x` are rendered alike. -/
theorem secret_String_hides_value_witness :
    secret.String ⟨"DB".toList, "kv/db".toList, "pass".toList, "hunter2".toList⟩
      = secret.String ⟨"DB".toList, "kv/db".toList, "pass".toList, "x".toList⟩ ∧
    secret.String ⟨"DB".toList, "kv/db".toList, "pass".toList, "hunter2".toList⟩
      = "(DB): kv/db pass=[...]".toList :=
  have h := secret_String_hides_value
    ⟨"DB".toList, "kv/db".toList, "pass".toList, "hunter2".toList⟩
    ⟨"DB".toList, "kv/db".toList, "pass".toList, "x".toList⟩ rfl rfl rfl (by decide)
  ⟨h.1, h.2.1 (by decide)⟩

/-! ## fetchSecrets: all or nothing -/

theorem fetchSecret_of_fetched (s : secret) (client : Client) (reads : List GoString)
    (v : GoString) (h : fetchedValue client reads s = some v) :
    fetchSecret s client reads = ⟨{ s with value := v }, reads ++ [s.path], .returned none⟩ := by
  unfold fetchedValue at h
  rcases hr : client.read reads s.path with ⟨resp, err⟩
  rw [hr] at h
  cases err with
  | some e => cases resp <;> simp at h
  | none =>
    cases resp with
    | none => simp at h
    | some resp =>
      obtain ⟨top⟩ := resp
      simp only at h
      rw [fetchSecret_of_resp s client reads top hr]
      cases hd : effectiveData top with
      | none => simp [hd] at h
      | some data =>
        simp only [hd] at h
        cases hk : GoMap.lookup data s.key with
        | none => simp [hk] at h
        | some val =>
          cases val <;> simp [hk] at h
          simp [hk, h]

theorem fetchSecret_of_not_fetched (s : secret) (client : Client) (reads : List GoString)
    (h : fetchedValue client reads s = none) :
    (fetchSecret s client reads).status = .panicked ∨
    ∃ e, (fetchSecret s client reads).status = .returned (some e) := by
  unfold fetchedValue at h
  rcases hr : client.read reads s.path with ⟨resp, err⟩
  rw [hr] at h
  cases err with
  | some e =>
    right
    exact ⟨e, by rw [fetchSecret_client_error_aux s client reads e (by rw [hr])]⟩
  | none =>
    cases resp with
    | none =>
      right
      exact ⟨pathNotFound s.path, by simp [fetchSecret, hr, pathNotFound]⟩
    | some resp =>
      obtain ⟨top⟩ := resp
      simp only at h
      rw [fetchSecret_of_resp s client reads top hr]
      cases hd : effectiveData top with
      | none => simp
      | some data =>
        simp only [hd] at h
        cases hk : GoMap.lookup data s.key with
        | none => simp [hk]
        | some val => cases val <;> simp [hk] at h ⊢

theorem fetchLoop_of_fetchAll (client : Client) (todo done res : List secret)
    (reads : List GoString) (h : fetchAll client todo reads = some res) :
    fetchLoop client done todo reads
      = ⟨done ++ res, reads ++ todo.map secret.path, .returned (some (done ++ res)) none⟩ := by
  induction todo generalizing done res reads with
  | nil =>
    simp only [fetchAll, Option.some.injEq] at h
    subst h
    simp [fetchLoop]
  | cons x rest ih =>
    unfold fetchAll at h
    cases hv : fetchedValue client reads x with
    | none => simp [hv] at h
    | some v =>
      cases hres : fetchAll client rest (reads ++ [x.path]) with
      | none => simp [hv, hres] at h
      | some r =>
        simp only [hv, hres, Option.some.injEq] at h
        subst h
        simp only [fetchLoop, fetchSecret_of_fetched x client reads v hv]
        rw [ih _ _ _ hres]
        simp

theorem fetchLoop_of_fetchAll_none (client : Client) (todo done : List secret)
    (reads : List GoString) (h : fetchAll client todo reads = none) :
    (fetchLoop client done todo reads).status = .panicked ∨
    ∃ e, (fetchLoop client done todo reads).status = .returned none (some e) := by
  induction todo generalizing done reads with
  | nil => simp [fetchAll] at h
  | cons x rest ih =>
    unfold fetchAll at h
    cases hv : fetchedValue client reads x with
    | none =>
      rcases fetchSecret_of_not_fetched x client reads hv with hp | ⟨e, he⟩
      · left
        simp [fetchLoop, hp]
      · right
        exact ⟨e, by simp [fetchLoop, he]⟩
    | some v =>
      cases hres : fetchAll client rest (reads ++ [x.path]) with
      | some r => simp [hv, hres] at h
      | none =>
        simp only [fetchLoop, fetchSecret_of_fetched x client reads v hv]
        exact ih _ _ hres

theorem fetchAll_iff (client : Client) (ds : List secret) (reads : List GoString)
    (out : List secret) :
    fetchAll client ds reads = some out ↔
      out.length = ds.length ∧
      ∀ j x, ds[j]? = some x →
        ∃ v, fetchedValue client (reads ++ (ds.take j).map secret.path) x = some v ∧
          out[j]? = some { x with value := v } := by
  induction ds generalizing reads out with
  | nil =>
    constructor
    · intro h
      simp only [fetchAll, Option.some.injEq] at h
      subst h
      simp
    · rintro ⟨hl, -⟩
      have : out = [] := List.length_eq_zero.mp hl
      subst this
      rfl
  | cons x rest ih =>
    constructor
    · intro h
      unfold fetchAll at h
      cases hv : fetchedValue client reads x with
      | none => simp [hv] at h
      | some v =>
        cases hres : fetchAll client rest (reads ++ [x.path]) with
        | none => simp [hv, hres] at h
        | some res =>
          simp only [hv, hres, Option.some.injEq] at h
          subst h
          obtain ⟨hl, hall⟩ := (ih _ _).mp hres
          refine ⟨by simp [hl], ?_⟩
          intro j y hy
          cases j with
          | zero =>
            simp only [List.getElem?_cons_zero, Option.some.injEq] at hy
            subst hy
            exact ⟨v, by simpa using hv, by simp⟩
          | succ j =>
            simp only [List.getElem?_cons_succ] at hy
            obtain ⟨w, hw, hout⟩ := hall j y hy
            refine ⟨w, ?_, by simpa using hout⟩
            simpa [List.append_assoc] using hw
    · rintro ⟨hl, hall⟩
      obtain ⟨v, hv, h0⟩ := hall 0 x (by simp)
      simp only [List.take_zero, List.map_nil, List.append_nil] at hv
      cases out with
      | nil => simp at hl
      | cons o res =>
        simp only [List.getElem?_cons_zero, Option.some.injEq] at h0
        have hres : fetchAll client rest (reads ++ [x.path]) = some res := by
          apply (ih _ _).mpr
          refine ⟨by simpa using hl, ?_⟩
          intro j y hy
          obtain ⟨w, hw, hout⟩ := hall (j + 1) y (by simpa using hy)
          refine ⟨w, ?_, by simpa using hout⟩
          simpa [List.append_assoc] using hw
        simp [fetchAll, hv, hres, h0]

theorem parsePaths_cases (paths : GoString) :
    (∃ ds, parsePaths paths = ⟨some ds, none⟩) ∨ (∃ e, parsePaths paths = ⟨none, some e⟩) := by
  unfold parsePaths
  rw [parseLoop_eq]
  cases firstBad (Split paths ',') with
  | some b => exact Or.inr ⟨_, rfl⟩
  | none => exact Or.inl ⟨_, rfl⟩

/-- C14, as stated, fails: with a number under the key, `fetchSecrets` neither
returns a sequence nor returns an error; it panics. -/
theorem fetchSecrets_panic_not_error :
    (fetchSecrets "p#k#n".toList
      (constClient ⟨some ⟨[("k".toList, .other "5".toList)]⟩, none⟩) []).status = .panicked ∧
    ¬ ((∃ out, (fetchSecrets "p#k#n".toList
          (constClient ⟨some ⟨[("k".toList, .other "5".toList)]⟩, none⟩) []).status
            = .returned (some out) none) ∨
       (∃ e, (fetchSecrets "p#k#n".toList
          (constClient ⟨some ⟨[("k".toList, .other "5".toList)]⟩, none⟩) []).status
            = .returned none (some e))) := by
  have h : (fetchSecrets "p#k#n".toList
      (constClient ⟨some ⟨[("k".toList, .other "5".toList)]⟩, none⟩) []).status = .panicked := by
    decide
  refine ⟨h, ?_⟩
  rw [h]
  rintro (⟨out, ho⟩ | ⟨e, he⟩)
  · exact BatchCompletion.noConfusion ho
  · exact BatchCompletion.noConfusion he

theorem fetchSecrets_outcomes (paths : GoString) (client : Client)
    (reads : List GoString) :
    (∀ out, (fetchSecrets paths client reads).status = .returned (some out) none ↔
      ∃ ds, parsePaths paths = ⟨some ds, none⟩ ∧ out.length = ds.length ∧
        ∀ j x, ds[j]? = some x →
          ∃ v, fetchedValue client (reads ++ (ds.take j).map secret.path) x = some v ∧
            out[j]? = some { x with value := v }) ∧
    ((∃ out, (fetchSecrets paths client reads).status = .returned (some out) none) ∨
     (∃ e, (fetchSecrets paths client reads).status = .returned none (some e)) ∨
     (fetchSecrets paths client reads).status = .panicked) := by
  rcases parsePaths_cases paths with ⟨ds, hp⟩ | ⟨e, hp⟩
  · have hrun : fetchSecrets paths client reads = fetchLoop client [] ds reads := by
      simp [fetchSecrets, hp]
    rw [hrun]
    cases hall : fetchAll client ds reads with
    | some res =>
      have hloop := fetchLoop_of_fetchAll client ds [] res reads hall
      rw [hloop]
      refine ⟨?_, Or.inl ⟨_, rfl⟩⟩
      intro out
      constructor
      · intro ho
        simp only [List.nil_append, BatchCompletion.returned.injEq, Option.some.injEq,
          and_true] at ho
        subst ho
        exact ⟨ds, hp, (fetchAll_iff client ds reads res).mp hall⟩
      · rintro ⟨ds', hds', hrest⟩
        rw [hp] at hds'
        simp only [ParseResult.mk.injEq, Option.some.injEq, and_true] at hds'
        subst hds'
        have := (fetchAll_iff client ds reads out).mpr hrest
        rw [hall] at this
        simp only [Option.some.injEq] at this
        subst this
        simp
    | none =>
      have hnone := fetchLoop_of_fetchAll_none client ds [] reads hall
      constructor
      · intro out
        constructor
        · intro ho
          rcases hnone with h1 | ⟨e, h1⟩
          · rw [h1] at ho
            exact BatchCompletion.noConfusion ho
          · rw [h1] at ho
            simp at ho
        · rintro ⟨ds', hds', hrest⟩
          rw [hp] at hds'
          simp only [ParseResult.mk.injEq, Option.some.injEq, and_true] at hds'
          subst hds'
          have := (fetchAll_iff client ds reads out).mpr hrest
          rw [hall] at this
          exact Option.noConfusion this
      · rcases hnone with h1 | ⟨e, h1⟩
        · exact Or.inr (Or.inr h1)
        · exact Or.inr (Or.inl ⟨e, h1⟩)
  · have hrun : fetchSecrets paths client reads = ⟨[], reads, .returned none (some e)⟩ := by
      simp [fetchSecrets, hp]
    rw [hrun]
    refine ⟨?_, Or.inr (Or.inl ⟨e, rfl⟩)⟩
    intro out
    constructor
    · intro ho
      simp at ho
    · rintro ⟨ds', hds', -⟩
      rw [hp] at hds'
      simp at hds'

theorem fetchLoop_panicked_iff (client : Client) (todo done : List secret)
    (reads : List GoString) :
    (fetchLoop client done todo reads).status = .panicked ↔
      ∃ i d, todo[i]? = some d ∧
        (∀ j x, j < i → todo[j]? = some x →
          (fetchSecret x client (reads ++ (todo.take j).map secret.path)).status
            = .returned none) ∧
        (fetchSecret d client (reads ++ (todo.take i).map secret.path)).status = .panicked := by
  induction todo generalizing done reads with
  | nil =>
    constructor
    · intro h
      exact BatchCompletion.noConfusion h
    · rintro ⟨i, d, hd, -⟩
      simp at hd
  | cons x rest ih =>
    cases hx : (fetchSecret x client reads).status with
    | panicked =>
      constructor
      · intro _
        refine ⟨0, x, List.getElem?_cons_zero, ?_, by simpa using hx⟩
        intro j y hj
        exact absurd hj (Nat.not_lt_zero j)
      · intro _
        simp [fetchLoop, hx]
    | returned err =>
      cases err with
      | some e =>
        constructor
        · intro h
          simp [fetchLoop, hx] at h
        · rintro ⟨i, d, hd, hok, hp⟩
          cases i with
          | zero =>
            simp only [List.getElem?_cons_zero, Option.some.injEq] at hd
            subst hd
            simp only [List.take_zero, List.map_nil, List.append_nil] at hp
            rw [hx] at hp
            exact Completion.noConfusion hp
          | succ i =>
            have h0 := hok 0 x (Nat.succ_pos i) List.getElem?_cons_zero
            simp only [List.take_zero, List.map_nil, List.append_nil] at h0
            rw [hx] at h0
            simp at h0
      | none =>
        have hstep : fetchLoop client done (x :: rest) reads
            = fetchLoop client (done ++ [(fetchSecret x client reads).s]) rest
                (reads ++ [x.path]) := by
          simp only [fetchLoop, hx, fetchSecret_reads]
        rw [hstep, ih]
        constructor
        · rintro ⟨i, d, hd, hok, hp⟩
          refine ⟨i + 1, d, by simpa using hd, ?_, by simpa [List.append_assoc] using hp⟩
          intro j y hj hy
          cases j with
          | zero =>
            simp only [List.getElem?_cons_zero, Option.some.injEq] at hy
            subst hy
            simpa using hx
          | succ j =>
            have := hok j y (Nat.lt_of_succ_lt_succ hj) (by simpa using hy)
            simpa [List.append_assoc] using this
        · rintro ⟨i, d, hd, hok, hp⟩
          cases i with
          | zero =>
            simp only [List.getElem?_cons_zero, Option.some.injEq] at hd
            subst hd
            simp only [List.take_zero, List.map_nil, List.append_nil] at hp
            rw [hx] at hp
            exact Completion.noConfusion hp
          | succ i =>
            refine ⟨i, d, by simpa using hd, ?_, by simpa [List.append_assoc] using hp⟩
            intro j y hj hy
            have := hok (j + 1) y (Nat.succ_lt_succ hj) (by simpa using hy)
            simpa [List.append_assoc] using this

theorem fetchSecrets_panicked_iff (paths : GoString) (client : Client)
    (reads : List GoString) :
    (fetchSecrets paths client reads).status = .panicked ↔
      ∃ ds i d, parsePaths paths = ⟨some ds, none⟩ ∧ ds[i]? = some d ∧
        (∀ j x, j < i → ds[j]? = some x →
          (fetchSecret x client (reads ++ (ds.take j).map secret.path)).status
            = .returned none) ∧
        (fetchSecret d client (reads ++ (ds.take i).map secret.path)).status = .panicked := by
  rcases parsePaths_cases paths with ⟨ds, hp⟩ | ⟨e, hp⟩
  · have hrun : fetchSecrets paths client reads = fetchLoop client [] ds reads := by
      simp [fetchSecrets, hp]
    rw [hrun, fetchLoop_panicked_iff]
    constructor
    · rintro ⟨i, d, h⟩
      exact ⟨ds, i, d, hp, h⟩
    · rintro ⟨ds', i, d, hds', h⟩
      rw [hp] at hds'
      simp only [ParseResult.mk.injEq, Option.some.injEq, and_true] at hds'
      subst hds'
      exact ⟨i, d, h⟩
  · have hrun : fetchSecrets paths client reads = ⟨[], reads, .returned none (some e)⟩ := by
      simp [fetchSecrets, hp]
    rw [hrun]
    constructor
    · intro h
      exact BatchCompletion.noConfusion h
    · rintro ⟨ds', i, d, hds', -⟩
      rw [hp] at hds'
      simp at hds'

/-- C14, amended: `fetchSecrets` returns a sequence exactly when the spec parses
and every descriptor, fetched in order, has a string under its key in the
effective data at its path; the sequence has the length and order of the
parsed descriptors, each keeping its name, path and key and holding that
string as value.  In every other case no sequence is returned: `fetchSecrets`
returns an error with a nil sequence, or it panics; and it panics exactly when
the spec parses and the first descriptor whose fetch does not return nil is one
whose fetch panics. -/
theorem fetchSecrets_all_or_nothing (paths : GoString) (client : Client)
    (reads : List GoString) :
    (∀ out, (fetchSecrets paths client reads).status = .returned (some out) none ↔
      ∃ ds, parsePaths paths = ⟨some ds, none⟩ ∧ out.length = ds.length ∧
        ∀ j x, ds[j]? = some x →
          ∃ v, fetchedValue client (reads ++ (ds.take j).map secret.path) x = some v ∧
            out[j]? = some { x with value := v }) ∧
    ((∃ out, (fetchSecrets paths client reads).status = .returned (some out) none) ∨
     (∃ e, (fetchSecrets paths client reads).status = .returned none (some e)) ∨
     (fetchSecrets paths client reads).status = .panicked) ∧
    ((fetchSecrets paths client reads).status = .panicked ↔
      ∃ ds i d, parsePaths paths = ⟨some ds, none⟩ ∧ ds[i]? = some d ∧
        (∀ j x, j < i → ds[j]? = some x →
          (fetchSecret x client (reads ++ (ds.take j).map secret.path)).status
            = .returned none) ∧
        (fetchSecret d client (reads ++ (ds.take i).map secret.path)).status = .panicked) :=
  ⟨(fetchSecrets_outcomes paths client reads).1, (fetchSecrets_outcomes paths client reads).2,
    fetchSecrets_panicked_iff paths client reads⟩

/-- Witness of C14 amended: two descriptors, both found; the sequence returned
has the parsed descriptors with the value `v`. -/
theorem fetchSecrets_all_or_nothing_witness :
    ∃ ds, parsePaths "a#k#A,c#k#C".toList = ⟨some ds, none⟩ ∧
      [(⟨"A".toList, "a".toList, "k".toList, "v".toList⟩ : secret),
        ⟨"C".toList, "c".toList, "k".toList, "v".toList⟩].length = ds.length ∧
      ∀ j x, ds[j]? = some x →
        ∃ v, fetchedValue storeWithoutB ([] ++ (ds.take j).map secret.path) x = some v ∧
          [(⟨"A".toList, "a".toList, "k".toList, "v".toList⟩ : secret),
            ⟨"C".toList, "c".toList, "k".toList, "v".toList⟩][j]?
            = some { x with value := v } :=
  ((fetchSecrets_all_or_nothing "a#k#A,c#k#C".toList storeWithoutB []).1
    [⟨"A".toList, "a".toList, "k".toList, "v".toList⟩,
      ⟨"C".toList, "c".toList, "k".toList, "v".toList⟩]).mp (by decide)

end KubeVaultClient
